import Mathlib

set_option maxRecDepth 1000000

/-!
Verification of the block-based virtual file system in `filesystem.py`.

The embedding models Python strings as `List Char` (`Frag`), the disk
dictionary as the structure `Disk`, and the Python dict `disk["files"]`
as an association list in insertion order (Python dicts preserve
insertion order; assignment to an existing key keeps its position,
assignment to a fresh key appends, `del` removes).

Out-of-range list indexing, which would raise `IndexError` in Python, is
modelled totally: `List.set` out of range is a no-op and reads out of
range yield the empty fragment.  All states reachable through the
engine's own operations keep indices in range, so the modelled and the
real behaviour agree there.

The GUI, `shlex` tokenization and JSON persistence are out of scope; the
command handlers `write`/`append`/`rm`/`defrag` inside
`execute_command` are modelled as functions on `Disk` taking the already
tokenized `path` and `content` arguments.  (For `append`, the
`shlex.quote`/`shlex.split` round trip of the nested `write` command is
the identity on a single token, so the nested call is modelled as a
direct call to the write handler.)
-/

/-- Python string fragment stored in a block. -/
abbrev Frag := List Char

/-- `BLOCK_SIZE = 128` from the source configuration. -/
def BLOCK_SIZE : Nat := 128

/-- `TOTAL_BLOCKS = 128` from the source configuration. -/
def TOTAL_BLOCKS : Nat := 128

/-- The persisted disk state: `blocks`, `files` and `strategy` from
`disk.json` (the `meta` timestamp carries no engine behaviour and is
omitted). -/
structure Disk where
  blocks : List (Option Frag)
  files : List (String × List Nat)
  strategy : String
deriving DecidableEq, Repr

/-- `default_disk()` from the source (modulo the creation timestamp). -/
def default_disk : Disk :=
  { blocks := List.replicate TOTAL_BLOCKS none
    files := []
    strategy := "bitmap" }

/-- Lookup `disk["files"][path]` (`None` for a `KeyError`/absence). -/
def getFile (files : List (String × List Nat)) (path : String) : Option (List Nat) :=
  (files.find? (fun e => e.1 == path)).map (fun e => e.2)

/-- Python dict assignment `disk["files"][path] = bs`: replace in place
if the key exists, otherwise append. -/
def setFile (files : List (String × List Nat)) (path : String) (bs : List Nat) :
    List (String × List Nat) :=
  if files.any (fun e => e.1 == path) then
    files.map (fun e => if e.1 == path then (path, bs) else e)
  else
    files ++ [(path, bs)]

/-- Python `del disk["files"][path]`. -/
def removeFile (files : List (String × List Nat)) (path : String) :
    List (String × List Nat) :=
  files.filter (fun e => e.1 != path)

/-- Helper for `free_indices`: the indices of `None` slots of `l`,
counting positions from `i` (the `enumerate` offset). -/
def freeFrom : List (Option Frag) → Nat → List Nat
  | [], _ => []
  | b :: rest, i =>
    if b.isNone then i :: freeFrom rest (i + 1) else freeFrom rest (i + 1)

/-- `free_indices(disk)`: `[i for i, b in enumerate(disk["blocks"]) if b is None]`. -/
def free_indices (d : Disk) : List Nat :=
  freeFrom d.blocks 0

/-- `get_free_blocks_bitmap(disk, n)`. -/
def get_free_blocks_bitmap (d : Disk) (n : Nat) : Option (List Nat) :=
  let free := free_indices d
  if free.length < n then none else some (free.take n)

/-- Scanning loop of `get_free_blocks_first_fit`: `i` is the index of the
next slot, `run` the length of the current consecutive free run.  On
`run == n` the Python code returns `list(range(i - n + 1, i + 1))`;
written `i + 1 - n` here so that the truncated subtraction agrees with
the Python integer arithmetic (at the trigger the run fits above 0). -/
def ffGo (n : Nat) : List (Option Frag) → Nat → Nat → Option (List Nat)
  | [], _, _ => none
  | b :: rest, i, run =>
    let run' := if b.isNone then run + 1 else 0
    if run' = n then some (List.range' (i + 1 - n) n)
    else ffGo n rest (i + 1) run'

/-- `get_free_blocks_first_fit(disk, n)`. -/
def get_free_blocks_first_fit (d : Disk) (n : Nat) : Option (List Nat) :=
  ffGo n d.blocks 0 0

/-- Run-collecting loop of `get_free_blocks_best_fit`: `current` is the
run of free indices being built, runs are emitted when a used slot is
met (and the pending run at the end, when non-empty). -/
def runsGo : List (Option Frag) → Nat → List Nat → List (List Nat)
  | [], _, current => if current.isEmpty then [] else [current]
  | b :: rest, i, current =>
    if b.isNone then runsGo rest (i + 1) (current ++ [i])
    else if current.isEmpty then runsGo rest (i + 1) []
    else current :: runsGo rest (i + 1) []

/-- The maximal consecutive free runs collected by `get_free_blocks_best_fit`. -/
def freeRuns (d : Disk) : List (List Nat) :=
  runsGo d.blocks 0 []

/-- `get_free_blocks_best_fit(disk, n)`: among the runs of length at
least `n`, `min(candidates, key=len)` keeps the first run of minimal
length; the first `n` indices of it are returned. -/
def get_free_blocks_best_fit (d : Disk) (n : Nat) : Option (List Nat) :=
  let candidates := (freeRuns d).filter (fun r => n ≤ r.length)
  match candidates with
  | [] => none
  | c :: cs =>
    some ((cs.foldl (fun best r => if r.length < best.length then r else best) c).take n)

/-- `allocate_blocks(disk, n)`: dispatch on `disk["strategy"]`
(an unknown strategy name yields `None`). -/
def allocate_blocks (d : Disk) (n : Nat) : Option (List Nat) :=
  if d.strategy = "bitmap" then get_free_blocks_bitmap d n
  else if d.strategy = "first_fit" then get_free_blocks_first_fit d n
  else if d.strategy = "best_fit" then get_free_blocks_best_fit d n
  else none

/-- The fragment read from slot `b`: `disk["blocks"][b] or ""`
(out-of-range access, an `IndexError` in Python, is modelled as ""). -/
def fragAt (blocks : List (Option Frag)) (b : Nat) : Frag :=
  match blocks[b]? with
  | some (some s) => s
  | _ => []

/-- `read_file_text(disk, path)`: `None` models the `FileNotFoundError`,
otherwise the concatenation of the file's block fragments in table order. -/
def read_file_text (d : Disk) (path : String) : Option Frag :=
  match getFile d.files path with
  | none => none
  | some bs => some ((bs.map (fragAt d.blocks)).flatten)

/-- `is_contiguous(blocks)` from the source. -/
def is_contiguous (blocks : List Nat) : Bool :=
  (List.range (blocks.length - 1)).all
    (fun i => blocks.getD i 0 + 1 == blocks.getD (i + 1) 0)

/-- `blocks_needed = (len(content) + BLOCK_SIZE - 1) // BLOCK_SIZE`. -/
def blocksNeeded (len : Nat) : Nat :=
  (len + BLOCK_SIZE - 1) / BLOCK_SIZE

/-- The `i`-th stored chunk: `content[i*BLOCK_SIZE:(i+1)*BLOCK_SIZE]`. -/
def chunk (content : Frag) (i : Nat) : Frag :=
  (content.drop (i * BLOCK_SIZE)).take BLOCK_SIZE

/-- The chunk-writing loop `for i, idx in enumerate(alloc):
blocks[idx] = content[i*BS:(i+1)*BS]`, with the enumeration counter
starting at `k`. -/
def writeChunksFrom (blocks : List (Option Frag)) (content : Frag) :
    List Nat → Nat → List (Option Frag)
  | [], _ => blocks
  | idx :: rest, k => writeChunksFrom (blocks.set idx (some (chunk content k))) content rest (k + 1)

/-- Write the chunks of `content` into the slots listed in `alloc`. -/
def writeChunks (blocks : List (Option Frag)) (content : Frag) (alloc : List Nat) :
    List (Option Frag) :=
  writeChunksFrom blocks content alloc 0

/-- The block-freeing loop `for b in bs: disk["blocks"][b] = None`. -/
def freeList (blocks : List (Option Frag)) (bs : List Nat) : List (Option Frag) :=
  bs.foldl (fun acc b => acc.set b none) blocks

/-- The `write` command handler of `execute_command`: allocate first
(`if not blocks` treats both `None` and the empty list as failure),
then free the path's old blocks, then store the chunks and update the
file table.  The boolean is `true` exactly when the success message
`Wrote ... bytes` is logged, `false` for `Not enough space`. -/
def writeCmd (d : Disk) (path : String) (content : Frag) : Disk × Bool :=
  let n := blocksNeeded content.length
  match allocate_blocks d n with
  | none => (d, false)
  | some alloc =>
    if alloc.isEmpty then (d, false)
    else
      let freed := freeList d.blocks ((getFile d.files path).getD [])
      ({ d with blocks := writeChunks freed content alloc
                files := setFile d.files path alloc }, true)

/-- The `append` command handler: read the existing content (absent path
means empty), issue a nested `write` whose output is discarded, and log
`Appended` unconditionally — the boolean success flag is always `true`
even when the nested write failed. -/
def appendCmd (d : Disk) (path : String) (content : Frag) : Disk × Bool :=
  let existing := if (getFile d.files path).isSome then (read_file_text d path).getD [] else []
  ((writeCmd d path (existing ++ content)).1, true)

/-- The `rm` command handler: free the blocks and drop the table entry;
`false` models the `File not found` message. -/
def rmCmd (d : Disk) (path : String) : Disk × Bool :=
  match getFile d.files path with
  | none => (d, false)
  | some bs =>
    ({ d with blocks := freeList d.blocks bs
              files := removeFile d.files path }, true)

/-- One iteration of the `defrag` loop: read the file's full text from
the old disk, assign the next consecutive range, write its chunks into
the new block array and extend the new file table. -/
def defragStep (d : Disk) (acc : List (Option Frag) × List (String × List Nat) × Nat)
    (e : String × List Nat) : List (Option Frag) × List (String × List Nat) × Nat :=
  let text := (read_file_text d e.1).getD []
  let need := blocksNeeded text.length
  let assigned := List.range' acc.2.2 need
  (writeChunks acc.1 text assigned, acc.2.1 ++ [(e.1, assigned)], acc.2.2 + need)

/-- The `defrag` command handler: iterate `sorted(disk["files"].items())`
(lexicographic by path, paths being unique keys) over a fresh all-free
block array, then replace blocks and file table wholesale. -/
def defragCmd (d : Disk) : Disk :=
  let sortedFiles := d.files.mergeSort (fun a b => decide (a.1 ≤ b.1))
  let res := sortedFiles.foldl (defragStep d) (List.replicate TOTAL_BLOCKS none, [], 0)
  { d with blocks := res.1, files := res.2.1 }

/-- The full content of a file as the engine reconstructs it (empty for
an absent path); abbreviates the `getD` used throughout the proofs. -/
def textOf (d : Disk) (q : String) : Frag :=
  (read_file_text d q).getD []

/-- Blocks needed to rewrite file `q` of disk `d`. -/
def needOf (d : Disk) (q : String) : Nat :=
  blocksNeeded (textOf d q).length

/-- The data-model invariants of §3 of the specification: the block
array has its fixed size, paths are unique, every referenced index is in
range, no block index is referenced twice (neither across files nor
inside one file), every referenced block is non-empty, and no fragment
exceeds `BLOCK_SIZE`. -/
abbrev WF (d : Disk) : Prop :=
  d.blocks.length = TOTAL_BLOCKS ∧
  (d.files.map (fun e => e.1)).Nodup ∧
  (∀ e ∈ d.files, ∀ b ∈ e.2, b < TOTAL_BLOCKS) ∧
  ((d.files.map (fun e => e.2)).flatten).Nodup ∧
  (∀ e ∈ d.files, ∀ b ∈ e.2, (d.blocks.getD b none).isSome = true) ∧
  (∀ f ∈ d.blocks, (f.getD []).length ≤ BLOCK_SIZE)

/-- The no-sharing invariant itself: the concatenation of all files'
block-index lists has no duplicate, i.e. each block index is referenced
by at most one file-table entry and at most once inside it. -/
def noShare (d : Disk) : Prop :=
  ((d.files.map (fun e => e.2)).flatten).Nodup

/-- Modelled from the spec: the allocation policy the specification
describes for `write` — "release old blocks for `path` first, then
allocate" — i.e. the allocator is consulted on a view in which the
path's own current blocks already count as free.  The source's `write`
handler instead allocates first; this definition exists only to compare
the two. -/
def releaseThenAllocate (d : Disk) (path : String) (n : Nat) : Option (List Nat) :=
  allocate_blocks { d with blocks := freeList d.blocks ((getFile d.files path).getD []) } n

/-- Four-slot store with only index 1 used: the spec's concrete
first-fit/bitmap contrast scenario. -/
def demoFF : Disk :=
  { blocks := [none, some ['u'], none, none], files := [], strategy := "first_fit" }

/-- Store whose maximal free runs have lengths 5, 2 and 3: the spec's
best-fit scenario. -/
def demoBF : Disk :=
  { blocks := [none, none, none, none, none, some ['u'],
               none, none, some ['u'], none, none, none],
    files := [], strategy := "best_fit" }

/-- Store with two free runs of equal length 2, to exhibit the
first-encountered tie-break of best fit. -/
def demoTie : Disk :=
  { blocks := [none, none, some ['u'], none, none], files := [], strategy := "best_fit" }

/-- Two-slot disk, both blocks used, file `a` owning block 0: a state in
which rewriting `a` fails for lack of space. -/
def dFull : Disk :=
  { blocks := [some ['h'], some ['w']], files := [("a", [0]), ("b", [1])], strategy := "bitmap" }

/-- One-slot disk whose only block is used by file `a`. -/
def dTight : Disk :=
  { blocks := [some ['h']], files := [("a", [0])], strategy := "bitmap" }

/-- One-slot disk whose only block is used by file `z`; no room for any
new file. -/
def dNoRoom : Disk :=
  { blocks := [some ['z']], files := [("z", [0])], strategy := "bitmap" }

/-- A well-formed two-file disk used to instantiate the defragmentation
and invariant theorems. -/
def wDisk : Disk :=
  { blocks := ((List.replicate 128 none).set 3 (some ['a'])).set 5 (some ['b'])
    files := [("b", [5]), ("a", [3])]
    strategy := "bitmap" }

/-! ### Unfolding equations for the scanning loops -/

theorem freeFrom_cons_none (rest : List (Option Frag)) (i : Nat) :
    freeFrom (none :: rest) i = i :: freeFrom rest (i + 1) := rfl

theorem freeFrom_cons_some (s : Frag) (rest : List (Option Frag)) (i : Nat) :
    freeFrom (some s :: rest) i = freeFrom rest (i + 1) := rfl

theorem writeChunksFrom_nil (blocks : List (Option Frag)) (c : Frag) (k : Nat) :
    writeChunksFrom blocks c [] k = blocks := rfl

theorem writeChunksFrom_cons (blocks : List (Option Frag)) (c : Frag) (a : Nat)
    (rest : List Nat) (k : Nat) :
    writeChunksFrom blocks c (a :: rest) k =
      writeChunksFrom (blocks.set a (some (chunk c k))) c rest (k + 1) := rfl

theorem freeList_nil (blocks : List (Option Frag)) : freeList blocks [] = blocks := rfl

theorem freeList_cons (blocks : List (Option Frag)) (b : Nat) (bs : List Nat) :
    freeList blocks (b :: bs) = freeList (blocks.set b none) bs := rfl

/-! ### Basic properties of the scanning and chunking helpers -/

theorem mem_freeFrom : ∀ (l : List (Option Frag)) (i x : Nat),
    x ∈ freeFrom l i ↔ i ≤ x ∧ l[x - i]? = some none := by
  intro l
  induction l with
  | nil =>
    intro i x
    simp [freeFrom]
  | cons b rest ih =>
    intro i x
    cases b with
    | none =>
      rw [freeFrom_cons_none, List.mem_cons, ih]
      constructor
      · rintro (rfl | ⟨hle, hget⟩)
        · exact ⟨Nat.le_refl _, by simp⟩
        · refine ⟨by omega, ?_⟩
          have hx : x - i = (x - (i + 1)) + 1 := by omega
          rw [hx, List.getElem?_cons_succ]
          exact hget
      · rintro ⟨hle, hget⟩
        by_cases hxi : x = i
        · exact Or.inl hxi
        · refine Or.inr ⟨by omega, ?_⟩
          have hx : x - i = (x - (i + 1)) + 1 := by omega
          rw [hx, List.getElem?_cons_succ] at hget
          exact hget
    | some s =>
      rw [freeFrom_cons_some, ih]
      constructor
      · rintro ⟨hle, hget⟩
        refine ⟨by omega, ?_⟩
        have hx : x - i = (x - (i + 1)) + 1 := by omega
        rw [hx, List.getElem?_cons_succ]
        exact hget
      · rintro ⟨hle, hget⟩
        by_cases hxi : x = i
        · subst hxi
          simp at hget
        · refine ⟨by omega, ?_⟩
          have hx : x - i = (x - (i + 1)) + 1 := by omega
          rw [hx, List.getElem?_cons_succ] at hget
          exact hget

theorem freeFrom_pairwise : ∀ (l : List (Option Frag)) (i : Nat),
    (freeFrom l i).Pairwise (· < ·) := by
  intro l
  induction l with
  | nil => intro i; simp [freeFrom]
  | cons b rest ih =>
    intro i
    cases b with
    | none =>
      rw [freeFrom_cons_none]
      refine List.pairwise_cons.mpr ⟨?_, ih (i + 1)⟩
      intro y hy
      have := (mem_freeFrom _ _ _).mp hy
      omega
    | some s =>
      rw [freeFrom_cons_some]
      exact ih (i + 1)

theorem freeFrom_nodup (l : List (Option Frag)) (i : Nat) : (freeFrom l i).Nodup :=
  (freeFrom_pairwise l i).imp (fun h => Nat.ne_of_lt h)

theorem mem_free_indices (d : Disk) (x : Nat) :
    x ∈ free_indices d ↔ d.blocks[x]? = some none := by
  rw [free_indices, mem_freeFrom]
  simp

theorem chunk_length_le (t : Frag) (i : Nat) : (chunk t i).length ≤ BLOCK_SIZE := by
  simp [chunk]

theorem flatten_chunks (t : Frag) :
    ∀ n : Nat, ((List.range n).map (chunk t)).flatten = t.take (n * BLOCK_SIZE) := by
  intro n
  induction n with
  | zero => simp
  | succ n ih =>
    rw [List.range_succ, List.map_append, List.flatten_append, ih]
    simp only [List.map_cons, List.map_nil, List.flatten_cons, List.flatten_nil,
      List.append_nil, chunk]
    rw [Nat.succ_mul, List.take_add]

theorem len_le_blocksNeeded_mul (len : Nat) : len ≤ blocksNeeded len * BLOCK_SIZE := by
  have h := Nat.div_add_mod (len + BLOCK_SIZE - 1) BLOCK_SIZE
  have h2 : (len + BLOCK_SIZE - 1) % BLOCK_SIZE < BLOCK_SIZE :=
    Nat.mod_lt _ (by norm_num [BLOCK_SIZE])
  simp only [blocksNeeded, BLOCK_SIZE] at *
  omega

theorem blocksNeeded_le (x m : Nat) (h : x ≤ m * BLOCK_SIZE) : blocksNeeded x ≤ m := by
  have h1 := Nat.div_add_mod (x + BLOCK_SIZE - 1) BLOCK_SIZE
  have h2 : (x + BLOCK_SIZE - 1) % BLOCK_SIZE < BLOCK_SIZE :=
    Nat.mod_lt _ (by norm_num [BLOCK_SIZE])
  simp only [blocksNeeded, BLOCK_SIZE] at *
  omega

theorem flatten_chunks_needed (t : Frag) :
    ((List.range (blocksNeeded t.length)).map (chunk t)).flatten = t := by
  rw [flatten_chunks]
  exact List.take_of_length_le (len_le_blocksNeeded_mul _)

/-! ### The chunk-writing and block-freeing loops -/

theorem writeChunksFrom_length (c : Frag) :
    ∀ (alloc : List Nat) (blocks : List (Option Frag)) (k : Nat),
    (writeChunksFrom blocks c alloc k).length = blocks.length := by
  intro alloc
  induction alloc with
  | nil => intro blocks k; rfl
  | cons a rest ih =>
    intro blocks k
    rw [writeChunksFrom_cons, ih, List.length_set]

theorem writeChunksFrom_not_mem (c : Frag) :
    ∀ (alloc : List Nat) (blocks : List (Option Frag)) (k p : Nat), p ∉ alloc →
    (writeChunksFrom blocks c alloc k)[p]? = blocks[p]? := by
  intro alloc
  induction alloc with
  | nil => intro blocks k p _; rfl
  | cons a rest ih =>
    intro blocks k p hp
    have hap : a ≠ p := by
      intro h
      exact hp (h ▸ List.mem_cons_self _ _)
    rw [writeChunksFrom_cons, ih _ _ _ (fun h => hp (List.mem_cons_of_mem _ h)),
      List.getElem?_set_ne hap]

theorem writeChunksFrom_get (c : Frag) :
    ∀ (alloc : List Nat) (blocks : List (Option Frag)) (k : Nat), alloc.Nodup →
    ∀ (j : Nat) (hj : j < alloc.length), alloc[j] < blocks.length →
    (writeChunksFrom blocks c alloc k)[alloc[j]]? = some (some (chunk c (k + j))) := by
  intro alloc
  induction alloc with
  | nil => intro blocks k _ j hj; exact absurd hj (by simp)
  | cons a rest ih =>
    intro blocks k hnd j hj hlt
    rcases List.nodup_cons.mp hnd with ⟨ha, hrest⟩
    cases j with
    | zero =>
      rw [List.getElem_cons_zero] at hlt ⊢
      rw [writeChunksFrom_cons, writeChunksFrom_not_mem c rest _ _ _ ha,
        List.getElem?_set_self', List.getElem?_eq_getElem hlt]
      rfl
    | succ j' =>
      rw [List.getElem_cons_succ] at hlt ⊢
      have hj' : j' < rest.length := by
        simpa using Nat.lt_of_succ_lt_succ hj
      have h := ih (blocks.set a (some (chunk c k))) (k + 1) hrest j' hj'
        (by rw [List.length_set]; exact hlt)
      rw [writeChunksFrom_cons]
      have hk : k + 1 + j' = k + (j' + 1) := by omega
      rw [← hk]
      exact h

theorem freeList_length : ∀ (bs : List Nat) (blocks : List (Option Frag)),
    (freeList blocks bs).length = blocks.length := by
  intro bs
  induction bs with
  | nil => intro blocks; rfl
  | cons b rest ih =>
    intro blocks
    rw [freeList_cons, ih, List.length_set]

theorem freeList_not_mem : ∀ (bs : List Nat) (blocks : List (Option Frag)) (p : Nat),
    p ∉ bs → (freeList blocks bs)[p]? = blocks[p]? := by
  intro bs
  induction bs with
  | nil => intro blocks p _; rfl
  | cons b rest ih =>
    intro blocks p hp
    have hbp : b ≠ p := by
      intro h
      exact hp (h ▸ List.mem_cons_self _ _)
    rw [freeList_cons, ih _ _ (fun h => hp (List.mem_cons_of_mem _ h)),
      List.getElem?_set_ne hbp]

theorem freeList_mem : ∀ (bs : List Nat) (blocks : List (Option Frag)) (p : Nat),
    p ∈ bs → p < blocks.length → (freeList blocks bs)[p]? = some none := by
  intro bs
  induction bs with
  | nil => intro blocks p hp; exact absurd hp (by simp)
  | cons b rest ih =>
    intro blocks p hp hlt
    rw [freeList_cons]
    by_cases hpr : p ∈ rest
    · exact ih _ _ hpr (by simpa using hlt)
    · have hpb : p = b := by
        rcases List.mem_cons.mp hp with h | h
        · exact h
        · exact absurd h hpr
      subst hpb
      rw [freeList_not_mem _ _ _ hpr, List.getElem?_set_self', List.getElem?_eq_getElem hlt]
      rfl

/-! ### File-table lemmas -/

theorem find?_setFile_map : ∀ (files : List (String × List Nat)) (p : String) (bs : List Nat),
    (files.map (fun e => if e.1 == p then (p, bs) else e)).find? (fun e => e.1 == p) =
      if files.any (fun e => e.1 == p) then some (p, bs) else none := by
  intro files
  induction files with
  | nil => intro p bs; rfl
  | cons e fs ih =>
    intro p bs
    by_cases hep : (e.1 == p) = true
    · rw [List.map_cons, if_pos hep, List.find?_cons_of_pos _ (by simp),
        List.any_cons, hep]
      simp
    · have hep2 : (e.1 == p) = false := by simpa using hep
      rw [List.map_cons, if_neg hep]
      rw [List.find?_cons]
      rw [hep2, ih, List.any_cons]
      rw [hep2, Bool.false_or]

theorem getFile_setFile_self (files : List (String × List Nat)) (p : String) (bs : List Nat) :
    getFile (setFile files p bs) p = some bs := by
  by_cases h : files.any (fun e => e.1 == p)
  · rw [setFile, if_pos h, getFile, find?_setFile_map, if_pos h]
    rfl
  · rw [setFile, if_neg h, getFile, List.find?_append]
    have hnone : files.find? (fun e => e.1 == p) = none := by
      rw [List.find?_eq_none]
      intro x hx hxp
      exact h (List.any_eq_true.mpr ⟨x, hx, hxp⟩)
    rw [hnone, List.find?_cons_of_pos _ (by simp)]
    rfl

theorem getFile_eq_of_mem : ∀ (files : List (String × List Nat)),
    (files.map (fun e => e.1)).Nodup → ∀ e ∈ files, getFile files e.1 = some e.2 := by
  intro files
  induction files with
  | nil => intro _ e he; exact absurd he (by simp)
  | cons f fs ih =>
    intro hnd e he
    rw [List.map_cons] at hnd
    rcases List.nodup_cons.mp hnd with ⟨hf, hfs⟩
    rcases List.mem_cons.mp he with rfl | he
    · rw [getFile, List.find?_cons_of_pos _ (by simp)]
      rfl
    · have hne : (f.1 == e.1) = false := by
        rw [beq_eq_false_iff_ne]
        intro hfe
        exact hf (by rw [hfe]; exact List.mem_map_of_mem (fun e => e.1) he)
      rw [getFile, List.find?_cons]
      rw [hne]
      exact ih hfs e he

theorem getFile_mem (files : List (String × List Nat)) (p : String) (bs : List Nat)
    (h : getFile files p = some bs) : ∃ e ∈ files, e.1 = p ∧ e.2 = bs := by
  rw [getFile] at h
  rcases Option.map_eq_some'.mp h with ⟨e, he, hbs⟩
  exact ⟨e, List.mem_of_find?_eq_some he, by simpa using List.find?_some he, hbs⟩

theorem setFile_keys_present (files : List (String × List Nat)) (p : String) (bs : List Nat)
    (h : files.any (fun e => e.1 == p) = true) :
    (setFile files p bs).map (fun e => e.1) = files.map (fun e => e.1) := by
  rw [setFile, if_pos h, List.map_map]
  refine List.map_congr_left ?_
  intro e _
  by_cases hep : (e.1 == p) = true
  · simp only [Function.comp_apply]
    rw [if_pos hep]
    exact (beq_iff_eq.mp hep).symm
  · simp only [Function.comp_apply]
    rw [if_neg hep]

theorem setFile_keys_absent (files : List (String × List Nat)) (p : String) (bs : List Nat)
    (h : files.any (fun e => e.1 == p) = false) :
    (setFile files p bs).map (fun e => e.1) = files.map (fun e => e.1) ++ [p] := by
  rw [setFile, if_neg (by simp [h]), List.map_append]
  rfl

theorem setFile_vals_present (files : List (String × List Nat)) (p : String) (bs : List Nat)
    (h : files.any (fun e => e.1 == p) = true) :
    (setFile files p bs).map (fun e => e.2) =
      files.map (fun e => if e.1 == p then bs else e.2) := by
  rw [setFile, if_pos h, List.map_map]
  refine List.map_congr_left ?_
  intro e _
  by_cases hep : (e.1 == p) = true
  · simp only [Function.comp_apply]
    rw [if_pos hep, if_pos hep]
  · simp only [Function.comp_apply]
    rw [if_neg hep, if_neg hep]

theorem setFile_vals_absent (files : List (String × List Nat)) (p : String) (bs : List Nat)
    (h : files.any (fun e => e.1 == p) = false) :
    (setFile files p bs).map (fun e => e.2) = files.map (fun e => e.2) ++ [bs] := by
  rw [setFile, if_neg (by simp [h]), List.map_append]
  rfl

/-! ### Analysis of the first-fit scan -/

/-- A free window of length `n` starting at `s`: all of `blocks[s..s+n-1]`
exist and are empty. -/
def hasFreeRun (blocks : List (Option Frag)) (s n : Nat) : Prop :=
  ∀ j < n, blocks[s + j]? = some none

/-- Proof-side reference function: the least start of a free window of
length `n`, scanning from the head. -/
def minFreeStart : List (Option Frag) → Nat → Option Nat
  | [], _ => none
  | b :: rest, n =>
    if ∀ j < n, (b :: rest)[j]? = some none then some 0
    else (minFreeStart rest n).map (fun s => s + 1)

theorem minFreeStart_zero (l : List (Option Frag)) (n : Nat) (hn : 1 ≤ n)
    (h : ∀ j < n, l[j]? = some none) : minFreeStart l n = some 0 := by
  cases l with
  | nil =>
    have := h 0 hn
    simp at this
  | cons b rest =>
    rw [minFreeStart, if_pos h]

theorem minFreeStart_some (l : List (Option Frag)) (n : Nat) :
    ∀ s, minFreeStart l n = some s →
    (∀ j < n, l[s + j]? = some none) ∧ ∀ t, (∀ j < n, l[t + j]? = some none) → s ≤ t := by
  induction l with
  | nil => intro s h; simp [minFreeStart] at h
  | cons b rest ih =>
    intro s h
    rw [minFreeStart] at h
    by_cases hc : ∀ j < n, (b :: rest)[j]? = some none
    · rw [if_pos hc] at h
      cases h
      exact ⟨by simpa using hc, fun t _ => Nat.zero_le t⟩
    · rw [if_neg hc] at h
      rcases Option.map_eq_some'.mp h with ⟨s', hs', rfl⟩
      rcases ih s' hs' with ⟨hfree, hmin⟩
      constructor
      · intro j hj
        have hx : s' + 1 + j = (s' + j) + 1 := by omega
        rw [hx, List.getElem?_cons_succ]
        exact hfree j hj
      · intro t ht
        cases t with
        | zero =>
          exact absurd (by simpa using ht) hc
        | succ t' =>
          have : ∀ j < n, rest[t' + j]? = some none := by
            intro j hj
            have h1 := ht j hj
            have hx : t' + 1 + j = (t' + j) + 1 := by omega
            rw [hx, List.getElem?_cons_succ] at h1
            exact h1
          have := hmin t' this
          omega

theorem minFreeStart_none (l : List (Option Frag)) (n : Nat) (hn : 1 ≤ n)
    (h : minFreeStart l n = none) : ∀ t, ¬(∀ j < n, l[t + j]? = some none) := by
  induction l with
  | nil =>
    intro t ht
    have := ht 0 hn
    simp at this
  | cons b rest ih =>
    intro t ht
    rw [minFreeStart] at h
    by_cases hc : ∀ j < n, (b :: rest)[j]? = some none
    · rw [if_pos hc] at h
      cases h
    · rw [if_neg hc] at h
      have hrest : minFreeStart rest n = none := by
        cases hr : minFreeStart rest n with
        | none => rfl
        | some s => rw [hr] at h; simp at h
      cases t with
      | zero => exact hc (by simpa using ht)
      | succ t' =>
        refine ih hrest t' ?_
        intro j hj
        have h1 := ht j hj
        have hx : t' + 1 + j = (t' + j) + 1 := by omega
        rw [hx, List.getElem?_cons_succ] at h1
        exact h1

theorem minFreeStart_shift (x : Frag) (rest : List (Option Frag)) (n : Nat) :
    ∀ run, run < n →
    minFreeStart (List.replicate run none ++ some x :: rest) n =
      (minFreeStart rest n).map (fun s => s + (run + 1)) := by
  intro run
  induction run with
  | zero =>
    intro hn
    simp only [List.replicate, List.nil_append]
    rw [minFreeStart, if_neg (by
      intro hc
      have := hc 0 hn
      simp at this)]
  | succ run ih =>
    intro hn
    have hrep : List.replicate (run + 1) (none : Option Frag) ++ some x :: rest =
        none :: (List.replicate run none ++ some x :: rest) := by
      simp [List.replicate_succ]
    rw [hrep, minFreeStart, if_neg (by
      intro hc
      have hj := hc (run + 1) hn
      have hx : (none :: (List.replicate run none ++ some x :: rest))[run + 1]? =
          (List.replicate run none ++ some x :: rest)[run]? := List.getElem?_cons_succ
      rw [hx, List.getElem?_append_right (by simp)] at hj
      simp at hj), ih (by omega)]
    cases minFreeStart rest n with
    | none => rfl
    | some s =>
      simp only [Option.map_some', Option.some.injEq]
      omega

theorem minFreeStart_replicate (n : Nat) (hn : 1 ≤ n) :
    ∀ run, run < n → minFreeStart (List.replicate run (none : Option Frag)) n = none := by
  intro run
  induction run with
  | zero => intro _; rfl
  | succ run ih =>
    intro hrn
    rw [List.replicate_succ, minFreeStart, if_neg (by
      intro hc
      have hj := hc (n - 1) (by omega)
      rw [List.getElem?_eq_none (by simp [List.replicate_succ]; omega)] at hj
      cases hj)]
    rw [ih (by omega)]
    rfl

theorem ffGo_nil (n i run : Nat) : ffGo n [] i run = none := rfl

theorem ffGo_cons_none (n : Nat) (rest : List (Option Frag)) (i run : Nat) :
    ffGo n (none :: rest) i run =
      if run + 1 = n then some (List.range' (i + 1 - n) n)
      else ffGo n rest (i + 1) (run + 1) := rfl

theorem ffGo_cons_some (n : Nat) (s : Frag) (rest : List (Option Frag)) (i run : Nat) :
    ffGo n (some s :: rest) i run =
      if 0 = n then some (List.range' (i + 1 - n) n)
      else ffGo n rest (i + 1) 0 := rfl

theorem ffGo_eq_minFreeStart (n : Nat) (hn : 1 ≤ n) :
    ∀ (rest : List (Option Frag)) (i run : Nat), run < n → run ≤ i →
    ffGo n rest i run =
      (minFreeStart (List.replicate run none ++ rest) n).map
        (fun s => List.range' (i - run + s) n) := by
  intro rest
  induction rest with
  | nil =>
    intro i run hrn _
    rw [ffGo_nil, List.append_nil, minFreeStart_replicate n hn run hrn]
    rfl
  | cons b rest ih =>
    intro i run hrn hri
    cases b with
    | none =>
      have hlist : List.replicate run (none : Option Frag) ++ none :: rest =
          List.replicate (run + 1) none ++ rest := by
        simp [List.replicate_succ', List.append_assoc]
      by_cases htr : run + 1 = n
      · rw [ffGo_cons_none, if_pos htr, hlist]
        rw [minFreeStart_zero _ n hn (by
          intro j hj
          rw [List.getElem?_append_left (by simp; omega), List.getElem?_replicate,
            if_pos (by omega)]), Option.map_some']
        have hstart : i + 1 - n = i - run + 0 := by omega
        rw [hstart]
      · have h1 : run + 1 < n := by omega
        have h2 : run + 1 ≤ i + 1 := by omega
        rw [ffGo_cons_none, if_neg htr, ih (i + 1) (run + 1) h1 h2, hlist]
        have hstart : i + 1 - (run + 1) = i - run := by omega
        rw [hstart]
    | some s =>
      have h1 : 0 < n := hn
      rw [ffGo_cons_some, if_neg (by omega), ih (i + 1) 0 h1 (by omega),
        minFreeStart_shift s rest n run hrn]
      simp only [List.replicate_zero, List.nil_append]
      cases minFreeStart rest n with
      | none => rfl
      | some t =>
        simp only [Option.map_some', Option.some.injEq]
        have hstart : i + 1 - 0 + t = i - run + (t + (run + 1)) := by omega
        rw [hstart]

theorem first_fit_eq (d : Disk) (n : Nat) (hn : 1 ≤ n) :
    get_free_blocks_first_fit d n =
      (minFreeStart d.blocks n).map (fun s => List.range' s n) := by
  rw [get_free_blocks_first_fit, ffGo_eq_minFreeStart n hn d.blocks 0 0 hn (Nat.le_refl 0)]
  simp only [List.replicate_zero, List.nil_append, Nat.sub_zero, Nat.zero_add]

/-! ### Analysis of the best-fit run partition -/

theorem runsGo_nil (i : Nat) (current : List Nat) :
    runsGo [] i current = if current.isEmpty then [] else [current] := rfl

theorem runsGo_cons_none (rest : List (Option Frag)) (i : Nat) (current : List Nat) :
    runsGo (none :: rest) i current = runsGo rest (i + 1) (current ++ [i]) := rfl

theorem runsGo_cons_some (s : Frag) (rest : List (Option Frag)) (i : Nat) (current : List Nat) :
    runsGo (some s :: rest) i current =
      if current.isEmpty then runsGo rest (i + 1) []
      else current :: runsGo rest (i + 1) [] := rfl

theorem runsGo_flatten : ∀ (rest : List (Option Frag)) (i : Nat) (current : List Nat),
    (runsGo rest i current).flatten = current ++ freeFrom rest i := by
  intro rest
  induction rest with
  | nil =>
    intro i current
    cases current with
    | nil => rfl
    | cons x xs => simp [runsGo_nil, freeFrom]
  | cons b rest ih =>
    intro i current
    cases b with
    | none =>
      rw [runsGo_cons_none, ih, freeFrom_cons_none]
      simp
    | some s =>
      rw [runsGo_cons_some]
      cases current with
      | nil => simpa [freeFrom_cons_some] using ih (i + 1) []
      | cons x xs =>
        simp [ih, freeFrom_cons_some]

theorem freeRuns_flatten (d : Disk) : (freeRuns d).flatten = free_indices d := by
  rw [freeRuns, runsGo_flatten, free_indices, List.nil_append]

theorem runsGo_spec (blocks : List (Option Frag)) :
    ∀ (rest : List (Option Frag)) (i c m : Nat),
    (∀ j, rest[j]? = blocks[i + j]?) → c + m = i →
    (∀ j < m, blocks[c + j]? = some none) →
    (c = 0 ∨ blocks[c - 1]? ≠ some none) →
    ∀ r ∈ runsGo rest i (List.range' c m),
    ∃ s len, 1 ≤ len ∧ r = List.range' s len ∧
      (∀ j < len, blocks[s + j]? = some none) ∧
      blocks[s + len]? ≠ some none ∧
      (s = 0 ∨ blocks[s - 1]? ≠ some none) := by
  intro rest
  induction rest with
  | nil =>
    intro i c m hdrop hci hfree hleft r hr
    have hend : blocks[i]? = none := by
      have h0 := (hdrop 0).symm
      simpa using h0
    cases m with
    | zero =>
      rw [List.range'_zero, runsGo_nil] at hr
      simp at hr
    | succ m' =>
      rw [runsGo_nil, if_neg (by simp [List.isEmpty_iff, List.range'_eq_nil])] at hr
      rcases List.mem_singleton.mp hr with rfl
      refine ⟨c, m' + 1, by omega, rfl, hfree, ?_, hleft⟩
      rw [show c + (m' + 1) = i from hci, hend]
      simp
  | cons b rest ih =>
    intro i c m hdrop hci hfree hleft r hr
    have hbi : blocks[i]? = some b := by
      have h0 := (hdrop 0).symm
      simpa using h0
    have hdrop2 : ∀ j, rest[j]? = blocks[i + 1 + j]? := by
      intro j
      have h1 := hdrop (j + 1)
      rw [List.getElem?_cons_succ] at h1
      rw [h1]
      congr 1
      omega
    cases b with
    | none =>
      rw [runsGo_cons_none] at hr
      have hconc : List.range' c m ++ [i] = List.range' c (m + 1) := by
        rw [List.range'_concat]
        congr 2
        omega
      rw [hconc] at hr
      refine ih (i + 1) c (m + 1) hdrop2 (by omega) ?_ hleft r hr
      intro j hj
      by_cases hjm : j < m
      · exact hfree j hjm
      · have hjeq : j = m := by omega
        subst hjeq
        rw [show c + j = i from by omega]
        exact hbi
    | some x =>
      rw [runsGo_cons_some] at hr
      have hih := ih (i + 1) (i + 1) 0 hdrop2 (by omega) (by omega)
        (Or.inr (by rw [show i + 1 - 1 = i from by omega, hbi]; simp))
      cases m with
      | zero =>
        rw [List.range'_zero] at hr
        rw [if_pos (by simp)] at hr
        exact hih r hr
      | succ m' =>
        rw [if_neg (by simp [List.isEmpty_iff, List.range'_eq_nil])] at hr
        rcases List.mem_cons.mp hr with rfl | hr
        · refine ⟨c, m' + 1, by omega, rfl, hfree, ?_, hleft⟩
          rw [show c + (m' + 1) = i from hci, hbi]
          simp
        · exact hih r hr

theorem freeRuns_spec (d : Disk) :
    ∀ r ∈ freeRuns d,
    ∃ s len, 1 ≤ len ∧ r = List.range' s len ∧
      (∀ j < len, d.blocks[s + j]? = some none) ∧
      d.blocks[s + len]? ≠ some none ∧
      (s = 0 ∨ d.blocks[s - 1]? ≠ some none) := by
  intro r hr
  refine runsGo_spec d.blocks d.blocks 0 0 0 (by intro j; rw [Nat.zero_add]) rfl
    (by omega) (Or.inl rfl) r ?_
  rw [List.range'_zero]
  exact hr

/-! ### The minimum-by-length fold of best fit -/

theorem foldlMin_spec : ∀ (cs : List (List Nat)) (c : List Nat),
    (cs.foldl (fun best r => if r.length < best.length then r else best) c = c ∨
      cs.foldl (fun best r => if r.length < best.length then r else best) c ∈ cs) ∧
    ∀ r ∈ c :: cs,
      (cs.foldl (fun best r => if r.length < best.length then r else best) c).length ≤
        r.length := by
  intro cs
  induction cs with
  | nil =>
    intro c
    refine ⟨Or.inl rfl, ?_⟩
    intro r hr
    rcases List.mem_singleton.mp hr with rfl
    exact Nat.le_refl _
  | cons r cs ih =>
    intro c
    rw [List.foldl_cons]
    by_cases hrc : r.length < c.length
    · rw [if_pos hrc]
      rcases ih r with ⟨hmem, hle⟩
      constructor
      · rcases hmem with hm | hm
        · exact Or.inr (by rw [hm]; exact List.mem_cons_self _ _)
        · exact Or.inr (List.mem_cons_of_mem _ hm)
      · intro x hx
        rcases List.mem_cons.mp hx with rfl | hx
        · have h1 := hle r (List.mem_cons_self _ _)
          omega
        · exact hle x hx
    · rw [if_neg hrc]
      rcases ih c with ⟨hmem, hle⟩
      constructor
      · rcases hmem with hm | hm
        · exact Or.inl hm
        · exact Or.inr (List.mem_cons_of_mem _ hm)
      · intro x hx
        rcases List.mem_cons.mp hx with rfl | hx
        · exact hle x (List.mem_cons_self _ _)
        · rcases List.mem_cons.mp hx with rfl | hx
          · have h1 := hle c (List.mem_cons_self _ _)
            omega
          · exact hle x (List.mem_cons_of_mem _ hx)

/-! ### Allocator facts common to the three strategies -/

theorem take_range' (s : Nat) (len n : Nat) (h : n ≤ len) :
    (List.range' s len).take n = List.range' s n := by
  have happ : List.range' s n ++ List.range' (s + n) (len - n) = List.range' s len := by
    have h1 := List.range'_append s n (len - n) 1
    rw [Nat.one_mul] at h1
    rw [h1]
    congr 1
    omega
  rw [← happ]
  have hlen : n = (List.range' s n).length := (List.length_range' _ _ _).symm
  calc (List.range' s n ++ List.range' (s + n) (len - n)).take n
      = (List.range' s n ++ List.range' (s + n) (len - n)).take (List.range' s n).length := by
        rw [← hlen]
    _ = List.range' s n := List.take_left _ _

theorem ffGo_some : ∀ (n : Nat) (rest : List (Option Frag)) (i run : Nat) (l : List Nat),
    ffGo n rest i run = some l → ∃ s, l = List.range' s n := by
  intro n rest
  induction rest with
  | nil =>
    intro i run l h
    rw [ffGo_nil] at h
    cases h
  | cons b rest ih =>
    intro i run l h
    cases b with
    | none =>
      rw [ffGo_cons_none] at h
      by_cases htr : run + 1 = n
      · rw [if_pos htr] at h
        cases h
        exact ⟨i + 1 - n, rfl⟩
      · rw [if_neg htr] at h
        exact ih _ _ _ h
    | some x =>
      rw [ffGo_cons_some] at h
      by_cases htr : 0 = n
      · rw [if_pos htr] at h
        cases h
        exact ⟨i + 1 - n, rfl⟩
      · rw [if_neg htr] at h
        exact ih _ _ _ h

theorem allocate_spec (d : Disk) (n : Nat) (alloc : List Nat)
    (h : allocate_blocks d n = some alloc) :
    alloc.Nodup ∧ alloc.length = n ∧ ∀ a ∈ alloc, d.blocks[a]? = some none := by
  rw [allocate_blocks] at h
  by_cases hb : d.strategy = "bitmap"
  · rw [if_pos hb, get_free_blocks_bitmap] at h
    by_cases hlen : (free_indices d).length < n
    · rw [if_pos hlen] at h
      cases h
    · rw [if_neg hlen] at h
      cases h
      refine ⟨(List.take_sublist _ _).nodup (freeFrom_nodup _ _), ?_, ?_⟩
      · rw [List.length_take]
        omega
      · intro a ha
        exact (mem_free_indices d a).mp (List.take_subset _ _ ha)
  · rw [if_neg hb] at h
    by_cases hf : d.strategy = "first_fit"
    · rw [if_pos hf] at h
      cases n with
      | zero =>
        rcases ffGo_some 0 d.blocks 0 0 alloc h with ⟨s, rfl⟩
        rw [List.range'_zero]
        refine ⟨List.nodup_nil, rfl, ?_⟩
        intro a ha
        simp at ha
      | succ n' =>
        rw [show get_free_blocks_first_fit d (n' + 1) = ffGo (n' + 1) d.blocks 0 0 from rfl]
          at h
        rw [← get_free_blocks_first_fit] at h
        rw [first_fit_eq d (n' + 1) (by omega)] at h
        rcases Option.map_eq_some'.mp h with ⟨s, hs, rfl⟩
        rcases minFreeStart_some d.blocks (n' + 1) s hs with ⟨hfree, _⟩
        refine ⟨List.nodup_range' _ _, List.length_range' _ _ _, ?_⟩
        intro a ha
        rcases List.mem_range'_1.mp ha with ⟨h1, h2⟩
        have := hfree (a - s) (by omega)
        rw [show s + (a - s) = a from by omega] at this
        exact this
    · rw [if_neg hf] at h
      by_cases hbf : d.strategy = "best_fit"
      · rw [if_pos hbf, get_free_blocks_best_fit] at h
        cases hc : (freeRuns d).filter (fun r => n ≤ r.length) with
        | nil =>
          rw [hc] at h
          cases h
        | cons c cs =>
          rw [hc] at h
          cases h
          rcases foldlMin_spec cs c with ⟨hmem, _⟩
          have hcand : cs.foldl (fun best r => if r.length < best.length then r else best) c ∈
              (freeRuns d).filter (fun r => n ≤ r.length) := by
            rw [hc]
            rcases hmem with hm | hm
            · rw [hm]
              exact List.mem_cons_self _ _
            · exact List.mem_cons_of_mem _ hm
          have hrun : cs.foldl (fun best r => if r.length < best.length then r else best) c ∈
              freeRuns d := (List.mem_filter.mp hcand).1
          have hn : n ≤ (cs.foldl (fun best r => if r.length < best.length then r else best)
              c).length := by
            have := (List.mem_filter.mp hcand).2
            exact of_decide_eq_true this
          rcases freeRuns_spec d _ hrun with ⟨s, len, _, heq, hfree, _, _⟩
          rw [heq] at hn
          rw [List.length_range'] at hn
          rw [heq, take_range' s len n hn]
          refine ⟨List.nodup_range' _ _, List.length_range' _ _ _, ?_⟩
          intro a ha
          rcases List.mem_range'_1.mp ha with ⟨h1, h2⟩
          have := hfree (a - s) (by omega)
          rw [show s + (a - s) = a from by omega] at this
          exact this
      · rw [if_neg hbf] at h
        cases h

/-! ### Behaviour of the write and append handlers -/

theorem writeCmd_fail_none (d : Disk) (p : String) (c : Frag)
    (h : allocate_blocks d (blocksNeeded c.length) = none) : writeCmd d p c = (d, false) := by
  simp [writeCmd, h]

theorem writeCmd_fail_empty (d : Disk) (p : String) (c : Frag)
    (h : allocate_blocks d (blocksNeeded c.length) = some []) : writeCmd d p c = (d, false) := by
  simp [writeCmd, h]

theorem writeCmd_success (d : Disk) (p : String) (c : Frag) (alloc : List Nat)
    (h : allocate_blocks d (blocksNeeded c.length) = some alloc) (hne : alloc ≠ []) :
    writeCmd d p c =
      ({ d with
          blocks := writeChunks (freeList d.blocks ((getFile d.files p).getD [])) c alloc
          files := setFile d.files p alloc }, true) := by
  simp [writeCmd, h, hne]

theorem writeCmd_snd_true_iff (d : Disk) (p : String) (c : Frag) :
    (writeCmd d p c).2 = true ↔
      ∃ alloc, allocate_blocks d (blocksNeeded c.length) = some alloc ∧ alloc ≠ [] := by
  cases halloc : allocate_blocks d (blocksNeeded c.length) with
  | none =>
    rw [writeCmd_fail_none d p c halloc]
    simp
  | some alloc =>
    cases alloc with
    | nil =>
      rw [writeCmd_fail_empty d p c halloc]
      simp [halloc]
    | cons a rest =>
      rw [writeCmd_success d p c (a :: rest) halloc (by simp)]
      simp [halloc]

theorem writeCmd_of_snd_false (d : Disk) (p : String) (c : Frag)
    (h : (writeCmd d p c).2 = false) : (writeCmd d p c).1 = d := by
  cases halloc : allocate_blocks d (blocksNeeded c.length) with
  | none => rw [writeCmd_fail_none d p c halloc]
  | some alloc =>
    cases alloc with
    | nil => rw [writeCmd_fail_empty d p c halloc]
    | cons a rest =>
      rw [writeCmd_success d p c (a :: rest) halloc (by simp)] at h
      cases h

theorem writeCmd_files (d : Disk) (p : String) (c : Frag) (alloc : List Nat)
    (h : allocate_blocks d (blocksNeeded c.length) = some alloc) (hne : alloc ≠ []) :
    getFile (writeCmd d p c).1.files p = some alloc := by
  rw [writeCmd_success d p c alloc h hne]
  exact getFile_setFile_self d.files p alloc

theorem writeCmd_read (d : Disk) (p : String) (c : Frag)
    (h : (writeCmd d p c).2 = true) : read_file_text (writeCmd d p c).1 p = some c := by
  rcases (writeCmd_snd_true_iff d p c).mp h with ⟨alloc, halloc, hne⟩
  rcases allocate_spec d (blocksNeeded c.length) alloc halloc with ⟨hnd, hlen, hfree⟩
  rw [writeCmd_success d p c alloc halloc hne]
  rw [read_file_text]
  simp only [getFile_setFile_self]
  have hbase : (freeList d.blocks ((getFile d.files p).getD [])).length = d.blocks.length :=
    freeList_length _ _
  have hmap : alloc.map
      (fragAt (writeChunks (freeList d.blocks ((getFile d.files p).getD [])) c alloc)) =
      (List.range alloc.length).map (chunk c) := by
    apply List.ext_get
    · simp
    · intro j h1 h2
      rw [List.get_eq_getElem, List.get_eq_getElem]
      rw [List.length_map] at h1
      simp only [List.getElem_map]
      have hjm : alloc[j] ∈ alloc := List.getElem_mem _
      have hjfree := hfree _ hjm
      have hjlt : alloc[j] < d.blocks.length := by
        rcases List.getElem?_eq_some.mp hjfree with ⟨hh, _⟩
        exact hh
      have hget : (writeChunks (freeList d.blocks ((getFile d.files p).getD []))
          c alloc)[alloc[j]]? = some (some (chunk c j)) := by
        have hg := writeChunksFrom_get c alloc
          (freeList d.blocks ((getFile d.files p).getD [])) 0 hnd j h1
          (by rw [hbase]; exact hjlt)
        rw [Nat.zero_add] at hg
        exact hg
      rw [fragAt, hget, List.getElem_range]
  rw [hmap, hlen, flatten_chunks_needed]

theorem appendCmd_snd (d : Disk) (p : String) (c : Frag) : (appendCmd d p c).2 = true := rfl

theorem appendCmd_fst (d : Disk) (p : String) (c : Frag) :
    (appendCmd d p c).1 =
      (writeCmd d p
        ((if (getFile d.files p).isSome then (read_file_text d p).getD [] else []) ++ c)).1 :=
  rfl

/-! ### Preservation of the data-model invariants -/

theorem usedAt_iff (blocks : List (Option Frag)) (b : Nat) :
    (blocks.getD b none).isSome = true ↔ ∃ f, blocks[b]? = some (some f) := by
  rw [List.getD_eq_getElem?_getD]
  cases hb : blocks[b]? with
  | none => simp
  | some f =>
    cases f with
    | none => simp
    | some s => simp


theorem any_key_false (files : List (String × List Nat)) (p : String)
    (h : ¬files.any (fun e => e.1 == p) = true) :
    files.any (fun e => e.1 == p) = false := by
  cases hb : files.any (fun e => e.1 == p) with
  | false => rfl
  | true => exact absurd hb h

theorem mem_setFile (files : List (String × List Nat)) (p : String) (bs : List Nat)
    (e : String × List Nat) (he : e ∈ setFile files p bs) :
    e = (p, bs) ∨ (e ∈ files ∧ ¬((e.1 == p) = true)) := by
  rw [setFile] at he
  by_cases h : files.any (fun e => e.1 == p)
  · rw [if_pos h] at he
    rcases List.mem_map.mp he with ⟨e0, he0, heq⟩
    by_cases hep : (e0.1 == p) = true
    · rw [if_pos hep] at heq
      exact Or.inl heq.symm
    · rw [if_neg hep] at heq
      subst heq
      exact Or.inr ⟨he0, hep⟩
  · rw [if_neg h] at he
    rcases List.mem_append.mp he with he | he
    · refine Or.inr ⟨he, ?_⟩
      intro hep
      exact (List.any_eq_false.mp (any_key_false files p h) e he) hep
    · exact Or.inl (List.mem_singleton.mp he)

theorem freeList_fragSize : ∀ (bs : List Nat) (blocks : List (Option Frag)),
    (∀ f ∈ blocks, (f.getD []).length ≤ BLOCK_SIZE) →
    ∀ f ∈ freeList blocks bs, (f.getD []).length ≤ BLOCK_SIZE := by
  intro bs
  induction bs with
  | nil => intro blocks h; exact h
  | cons b rest ih =>
    intro blocks h
    rw [freeList_cons]
    refine ih _ ?_
    intro f hf
    rcases List.mem_or_eq_of_mem_set hf with hf | rfl
    · exact h f hf
    · simp

theorem writeChunksFrom_fragSize (c : Frag) : ∀ (alloc : List Nat)
    (blocks : List (Option Frag)) (k : Nat),
    (∀ f ∈ blocks, (f.getD []).length ≤ BLOCK_SIZE) →
    ∀ f ∈ writeChunksFrom blocks c alloc k, (f.getD []).length ≤ BLOCK_SIZE := by
  intro alloc
  induction alloc with
  | nil => intro blocks k h; exact h
  | cons a rest ih =>
    intro blocks k h
    rw [writeChunksFrom_cons]
    refine ih _ _ ?_
    intro f hf
    rcases List.mem_or_eq_of_mem_set hf with hf | rfl
    · exact h f hf
    · simpa using chunk_length_le c k

theorem disjoint_of_free (d : Disk) (hWF : WF d) (alloc : List Nat)
    (hfree : ∀ a ∈ alloc, d.blocks[a]? = some none) :
    ∀ e ∈ d.files, List.Disjoint alloc e.2 := by
  intro e he a ha hae
  have hused := hWF.2.2.2.2.1 e he a hae
  rw [usedAt_iff] at hused
  rcases hused with ⟨f, hf⟩
  rw [hfree a ha] at hf
  cases hf

theorem pairwise_vals (d : Disk) (hWF : WF d) :
    d.files.Pairwise (fun e1 e2 => List.Disjoint e1.2 e2.2) :=
  List.pairwise_map.mp (List.nodup_flatten.mp hWF.2.2.2.1).2

theorem pairwise_keys (d : Disk) (hWF : WF d) :
    d.files.Pairwise (fun e1 e2 => e1.1 ≠ e2.1) :=
  List.pairwise_map.mp hWF.2.1

theorem disjoint_of_entries (d : Disk) (hWF : WF d) (e1 e2 : String × List Nat)
    (h1 : e1 ∈ d.files) (h2 : e2 ∈ d.files) (hne : e1.1 ≠ e2.1) :
    List.Disjoint e1.2 e2.2 := by
  have hsym : Symmetric (fun a b : String × List Nat => List.Disjoint a.2 b.2) :=
    fun _ _ h => h.symm
  exact List.Pairwise.forall hsym (pairwise_vals d hWF) h1 h2
    (fun h => hne (by rw [h]))

theorem old_blocks_used (d : Disk) (hWF : WF d) (p : String) :
    ∀ b ∈ (getFile d.files p).getD [], (d.blocks.getD b none).isSome = true := by
  intro b hb
  cases hget : getFile d.files p with
  | none => rw [hget] at hb; simp at hb
  | some bs =>
    rw [hget] at hb
    rcases getFile_mem d.files p bs hget with ⟨ep, hep, _, hval⟩
    exact hWF.2.2.2.2.1 ep hep b (by rw [hval]; exact hb)

theorem not_mem_old (d : Disk) (hWF : WF d) (p : String) (e : String × List Nat)
    (he : e ∈ d.files) (hne : e.1 ≠ p) :
    ∀ b ∈ e.2, b ∉ (getFile d.files p).getD [] := by
  intro b hb
  cases hget : getFile d.files p with
  | none => simp
  | some bs =>
    rcases getFile_mem d.files p bs hget with ⟨ep, hep, hkey, hval⟩
    have hdisj := disjoint_of_entries d hWF e ep he hep (by rw [hkey]; exact hne)
    simp only [Option.getD_some]
    rw [← hval]
    exact hdisj hb

theorem WF_writeCmd (d : Disk) (p : String) (c : Frag) (hWF : WF d) :
    WF (writeCmd d p c).1 := by
  cases halloc : allocate_blocks d (blocksNeeded c.length) with
  | none => rw [writeCmd_fail_none d p c halloc]; exact hWF
  | some alloc =>
    by_cases hnil : alloc = []
    · subst hnil
      rw [writeCmd_fail_empty d p c halloc]
      exact hWF
    · have hne : alloc ≠ [] := hnil
      rcases allocate_spec d (blocksNeeded c.length) alloc halloc with ⟨hnd, _, hfree⟩
      rw [writeCmd_success d p c alloc halloc hne]
      have hlt : ∀ a ∈ alloc, a < d.blocks.length := by
        intro a ha
        rcases List.getElem?_eq_some.mp (hfree a ha) with ⟨h1, _⟩
        exact h1
      have hb2len : (writeChunks (freeList d.blocks ((getFile d.files p).getD []))
          c alloc).length = d.blocks.length := by
        rw [writeChunks, writeChunksFrom_length, freeList_length]
      have hdisjalloc := disjoint_of_free d hWF alloc hfree
      refine ⟨?_, ?_, ?_, ?_, ?_, ?_⟩
      · simpa [hb2len] using hWF.1
      · by_cases hp : d.files.any (fun e => e.1 == p)
        · simpa [setFile_keys_present d.files p alloc hp] using hWF.2.1
        · rw [show (setFile d.files p alloc).map (fun e => e.1) =
            d.files.map (fun e => e.1) ++ [p] from
            setFile_keys_absent d.files p alloc (any_key_false _ _ hp)]
          rw [List.nodup_append]
          refine ⟨hWF.2.1, by simp, ?_⟩
          intro x hx
          rcases List.mem_map.mp hx with ⟨e, he, hkey⟩
          simp only [List.mem_singleton]
          intro hxp
          subst hxp
          exact (List.any_eq_false.mp (any_key_false _ _ hp) e he) (by simp [hkey])
      · intro e he b hb
        rcases mem_setFile d.files p alloc e he with rfl | ⟨he2, _⟩
        · have h1 := hlt b hb
          have h2 := hWF.1
          omega
        · exact hWF.2.2.1 e he2 b hb
      · rw [List.nodup_flatten]
        have holdflat := List.nodup_flatten.mp hWF.2.2.2.1
        constructor
        · intro l hl
          rcases List.mem_map.mp hl with ⟨e, he, hval⟩
          rcases mem_setFile d.files p alloc e he with rfl | ⟨he2, _⟩
          · rw [← hval]
            exact hnd
          · rw [← hval]
            exact holdflat.1 e.2 (List.mem_map_of_mem _ he2)
        · by_cases hp : d.files.any (fun e => e.1 == p)
          · rw [setFile_vals_present d.files p alloc hp]
            rw [List.pairwise_map]
            refine List.Pairwise.imp_of_mem ?_
              ((pairwise_vals d hWF).and (pairwise_keys d hWF))
            intro e1 e2 h1 h2 hr
            by_cases h1p : (e1.1 == p) = true
            · by_cases h2p : (e2.1 == p) = true
              · exact absurd (by
                  rw [beq_iff_eq.mp h1p, beq_iff_eq.mp h2p]) hr.2
              · rw [if_pos h1p, if_neg h2p]
                exact hdisjalloc e2 h2
            · by_cases h2p : (e2.1 == p) = true
              · rw [if_neg h1p, if_pos h2p]
                exact (hdisjalloc e1 h1).symm
              · rw [if_neg h1p, if_neg h2p]
                exact hr.1
          · rw [setFile_vals_absent d.files p alloc (any_key_false _ _ hp)]
            rw [List.pairwise_append]
            refine ⟨holdflat.2, by simp, ?_⟩
            intro v hv w hw
            rcases List.mem_singleton.mp hw with rfl
            rcases List.mem_map.mp hv with ⟨e, he, hval⟩
            rw [← hval]
            exact (hdisjalloc e he).symm
      · intro e he b hb
        rcases mem_setFile d.files p alloc e he with rfl | ⟨he2, hep⟩
        · simp only at hb
          rcases List.mem_iff_getElem?.mp hb with ⟨j, hj⟩
          rcases List.getElem?_eq_some.mp hj with ⟨hjlt, hjval⟩
          have hget := writeChunksFrom_get c alloc
            (freeList d.blocks ((getFile d.files p).getD [])) 0 hnd j hjlt
            (by rw [freeList_length, hjval]; exact hlt b hb)
          rw [hjval] at hget
          rw [usedAt_iff]
          exact ⟨_, hget⟩
        · have hnep : e.1 ≠ p := fun h => hep (beq_iff_eq.mpr h)
          have hba : b ∉ alloc := fun hba => hdisjalloc e he2 hba hb
          have hbo : b ∉ (getFile d.files p).getD [] :=
            not_mem_old d hWF p e he2 hnep b hb
          rcases usedAt_iff _ _ |>.mp (hWF.2.2.2.2.1 e he2 b hb) with ⟨f, hf⟩
          rw [usedAt_iff]
          refine ⟨f, ?_⟩
          rw [writeChunks, writeChunksFrom_not_mem c alloc _ 0 b hba,
            freeList_not_mem _ _ _ hbo]
          exact hf
      · refine writeChunksFrom_fragSize c alloc _ 0 ?_
        exact freeList_fragSize _ _ hWF.2.2.2.2.2

theorem WF_rmCmd (d : Disk) (p : String) (hWF : WF d) : WF (rmCmd d p).1 := by
  cases hget : getFile d.files p with
  | none =>
    rw [rmCmd, hget]
    exact hWF
  | some bs =>
    rw [rmCmd, hget]
    rcases getFile_mem d.files p bs hget with ⟨ep, hep, hkey, hval⟩
    have hsubl : (removeFile d.files p).Sublist d.files := List.filter_sublist _
    refine ⟨?_, ?_, ?_, ?_, ?_, ?_⟩
    · simpa [freeList_length] using hWF.1
    · exact (hsubl.map (fun e => e.1)).nodup hWF.2.1
    · intro e he b hb
      exact hWF.2.2.1 e (hsubl.subset he) b hb
    · have hsubv : ((removeFile d.files p).map (fun e => e.2)).Sublist
        (d.files.map (fun e => e.2)) := hsubl.map _
      rw [List.nodup_flatten]
      have holdflat := List.nodup_flatten.mp hWF.2.2.2.1
      exact ⟨fun l hl => holdflat.1 l (hsubv.subset hl), holdflat.2.sublist hsubv⟩
    · intro e he b hb
      have he2 := hsubl.subset he
      have hnep : e.1 ≠ p := by
        have := List.of_mem_filter he
        simpa using this
      have hdisj := disjoint_of_entries d hWF e ep he2 hep (by rw [hkey]; exact hnep)
      have hbbs : b ∉ bs := by
        rw [← hval]
        exact hdisj hb
      rcases usedAt_iff _ _ |>.mp (hWF.2.2.2.2.1 e he2 b hb) with ⟨f, hf⟩
      rw [usedAt_iff]
      refine ⟨f, ?_⟩
      rw [freeList_not_mem _ _ _ hbbs]
      exact hf
    · exact freeList_fragSize _ _ hWF.2.2.2.2.2

theorem WF_appendCmd (d : Disk) (p : String) (c : Frag) (hWF : WF d) :
    WF (appendCmd d p c).1 := by
  rw [appendCmd_fst]
  exact WF_writeCmd d p _ hWF

/-! ### The defragmentation fold -/

/-- The layout a processed file-table entry has inside the rebuilt block
array: a consecutive range below the write cursor whose cells hold the
file's chunks in order. -/
def entryOK (d : Disk) (nb : List (Option Frag)) (idx : Nat) (e : String × List Nat) : Prop :=
  ∃ s, s + needOf d e.1 ≤ idx ∧ e.2 = List.range' s (needOf d e.1) ∧
    ∀ j < needOf d e.1, nb[s + j]? = some (some (chunk (textOf d e.1) j))

theorem defragStep_def (d : Disk) (acc : List (Option Frag) × List (String × List Nat) × Nat)
    (e : String × List Nat) :
    defragStep d acc e =
      (writeChunks acc.1 (textOf d e.1) (List.range' acc.2.2 (needOf d e.1)),
        acc.2.1 ++ [(e.1, List.range' acc.2.2 (needOf d e.1))],
        acc.2.2 + needOf d e.1) := rfl

theorem writeChunks_range_get (t : Frag) (nb : List (Option Frag)) (idx need j : Nat)
    (hj : j < need) (hin : idx + need ≤ nb.length) :
    (writeChunks nb t (List.range' idx need))[idx + j]? = some (some (chunk t j)) := by
  have hlenr : j < (List.range' idx need).length := by
    rw [List.length_range']
    exact hj
  have hidx : (List.range' idx need)[j] = idx + j := by
    rw [List.getElem_range', Nat.one_mul]
  have hlt : (List.range' idx need)[j] < nb.length := by
    rw [hidx]
    omega
  have hget := writeChunksFrom_get t (List.range' idx need) nb 0
    (List.nodup_range' _ _) j hlenr hlt
  rw [hidx, Nat.zero_add] at hget
  exact hget

theorem writeChunks_range_not_mem (t : Frag) (nb : List (Option Frag)) (idx need i : Nat)
    (hi : i < idx ∨ idx + need ≤ i) :
    (writeChunks nb t (List.range' idx need))[i]? = nb[i]? := by
  apply writeChunksFrom_not_mem
  intro hmem
  rcases List.mem_range'_1.mp hmem with ⟨h1, h2⟩
  omega

theorem defrag_fold (d : Disk) :
    ∀ (L : List (String × List Nat)) (nb : List (Option Frag))
      (nm : List (String × List Nat)) (idx : Nat),
    nb.length = TOTAL_BLOCKS →
    idx + (L.map (fun e => needOf d e.1)).sum ≤ TOTAL_BLOCKS →
    (∀ i, idx ≤ i → i < TOTAL_BLOCKS → nb[i]? = some none) →
    (∀ i < idx, ∃ f, nb[i]? = some (some f) ∧ f.length ≤ BLOCK_SIZE) →
    (∀ e ∈ nm, entryOK d nb idx e) →
    (nm.map (fun e => e.2)).flatten = List.range' 0 idx →
    (L.foldl (defragStep d) (nb, nm, idx)).2.2 =
      idx + (L.map (fun e => needOf d e.1)).sum ∧
    (L.foldl (defragStep d) (nb, nm, idx)).1.length = TOTAL_BLOCKS ∧
    (∀ i, (L.foldl (defragStep d) (nb, nm, idx)).2.2 ≤ i → i < TOTAL_BLOCKS →
      (L.foldl (defragStep d) (nb, nm, idx)).1[i]? = some none) ∧
    (∀ i < (L.foldl (defragStep d) (nb, nm, idx)).2.2,
      ∃ f, (L.foldl (defragStep d) (nb, nm, idx)).1[i]? = some (some f) ∧
        f.length ≤ BLOCK_SIZE) ∧
    (∀ e ∈ (L.foldl (defragStep d) (nb, nm, idx)).2.1,
      entryOK d (L.foldl (defragStep d) (nb, nm, idx)).1
        (L.foldl (defragStep d) (nb, nm, idx)).2.2 e) ∧
    ((L.foldl (defragStep d) (nb, nm, idx)).2.1.map (fun e => e.2)).flatten =
      List.range' 0 (L.foldl (defragStep d) (nb, nm, idx)).2.2 ∧
    (L.foldl (defragStep d) (nb, nm, idx)).2.1.map (fun e => e.1) =
      nm.map (fun e => e.1) ++ L.map (fun e => e.1) := by
  intro L
  induction L with
  | nil =>
    intro nb nm idx h1 h2 h3 h4 h5 h6
    refine ⟨rfl, h1, h3, h4, h5, h6, by simp⟩
  | cons e L ih =>
    intro nb nm idx h1 h2 h3 h4 h5 h6
    rw [List.foldl_cons, defragStep_def]
    have hsum : (List.map (fun e => needOf d e.1) (e :: L)).sum =
        needOf d e.1 + (List.map (fun e => needOf d e.1) L).sum := by
      rw [List.map_cons, List.sum_cons]
    have hcap : idx + needOf d e.1 + (List.map (fun e => needOf d e.1) L).sum ≤
        TOTAL_BLOCKS := by
      rw [hsum] at h2
      omega
    have hin : idx + needOf d e.1 ≤ nb.length := by
      rw [h1]
      omega
    have h1' : (writeChunks nb (textOf d e.1)
        (List.range' idx (needOf d e.1))).length = TOTAL_BLOCKS := by
      rw [writeChunks, writeChunksFrom_length]
      exact h1
    have h3' : ∀ i, idx + needOf d e.1 ≤ i → i < TOTAL_BLOCKS →
        (writeChunks nb (textOf d e.1) (List.range' idx (needOf d e.1)))[i]? = some none := by
      intro i hge hlt
      rw [writeChunks_range_not_mem _ _ _ _ _ (Or.inr hge)]
      exact h3 i (by omega) hlt
    have h4' : ∀ i < idx + needOf d e.1,
        ∃ f, (writeChunks nb (textOf d e.1) (List.range' idx (needOf d e.1)))[i]? =
          some (some f) ∧ f.length ≤ BLOCK_SIZE := by
      intro i hi
      by_cases hlow : i < idx
      · rcases h4 i hlow with ⟨f, hf, hfs⟩
        refine ⟨f, ?_, hfs⟩
        rw [writeChunks_range_not_mem _ _ _ _ _ (Or.inl hlow)]
        exact hf
      · have hj : i - idx < needOf d e.1 := by omega
        have := writeChunks_range_get (textOf d e.1) nb idx (needOf d e.1) (i - idx) hj hin
        rw [show idx + (i - idx) = i from by omega] at this
        exact ⟨_, this, chunk_length_le _ _⟩
    have h5' : ∀ e2 ∈ nm ++ [(e.1, List.range' idx (needOf d e.1))],
        entryOK d (writeChunks nb (textOf d e.1) (List.range' idx (needOf d e.1)))
          (idx + needOf d e.1) e2 := by
      intro e2 he2
      rcases List.mem_append.mp he2 with he2 | he2
      · rcases h5 e2 he2 with ⟨s, hle, hshape, hcells⟩
        refine ⟨s, by omega, hshape, ?_⟩
        intro j hj
        rw [writeChunks_range_not_mem _ _ _ _ _ (Or.inl (by omega))]
        exact hcells j hj
      · rcases List.mem_singleton.mp he2 with rfl
        refine ⟨idx, Nat.le_refl _, rfl, ?_⟩
        intro j hj
        exact writeChunks_range_get _ _ _ _ j hj hin
    have h6' : ((nm ++ [(e.1, List.range' idx (needOf d e.1))]).map
        (fun e => e.2)).flatten = List.range' 0 (idx + needOf d e.1) := by
      rw [List.map_append, List.flatten_append, h6]
      have happ := List.range'_append 0 idx (needOf d e.1) 1
      rw [Nat.one_mul, Nat.zero_add] at happ
      rw [show List.range' 0 (needOf d e.1 + idx) = List.range' 0 (idx + needOf d e.1)
        from by rw [Nat.add_comm]] at happ
      rw [← happ]
      simp
    have hres := ih (writeChunks nb (textOf d e.1) (List.range' idx (needOf d e.1)))
      (nm ++ [(e.1, List.range' idx (needOf d e.1))]) (idx + needOf d e.1)
      h1' (by omega) h3' h4' h5' h6'
    rcases hres with ⟨r1, r2, r3, r4, r5, r6, r7⟩
    refine ⟨?_, r2, r3, r4, r5, r6, ?_⟩
    · rw [r1, hsum]
      omega
    · rw [r7]
      simp

/-! ### Consequences for the defrag command -/

theorem fragAt_length_le (d : Disk) (hWF : WF d) (b : Nat) :
    (fragAt d.blocks b).length ≤ BLOCK_SIZE := by
  rw [fragAt]
  cases hb : d.blocks[b]? with
  | none => simp
  | some f =>
    cases f with
    | none => simp
    | some s =>
      have hmem : (some s) ∈ d.blocks := by
        rcases List.getElem?_eq_some.mp hb with ⟨h1, h2⟩
        rw [← h2]
        exact List.getElem_mem _
      have := hWF.2.2.2.2.2 (some s) hmem
      simpa using this

theorem read_eq_of_mem (d : Disk) (hkeys : (d.files.map (fun e => e.1)).Nodup)
    (e : String × List Nat) (he : e ∈ d.files) :
    read_file_text d e.1 = some ((e.2.map (fragAt d.blocks)).flatten) := by
  rw [read_file_text, getFile_eq_of_mem d.files hkeys e he]

theorem textOf_eq_of_mem (d : Disk) (hkeys : (d.files.map (fun e => e.1)).Nodup)
    (e : String × List Nat) (he : e ∈ d.files) :
    textOf d e.1 = (e.2.map (fragAt d.blocks)).flatten := by
  rw [textOf, read_eq_of_mem d hkeys e he]
  rfl

theorem needOf_le_blocks (d : Disk) (hWF : WF d) (e : String × List Nat) (he : e ∈ d.files) :
    needOf d e.1 ≤ e.2.length := by
  rw [needOf]
  refine blocksNeeded_le _ _ ?_
  rw [textOf_eq_of_mem d hWF.2.1 e he]
  rw [List.length_flatten, List.map_map]
  have hle : ((e.2.map (fun b => (fragAt d.blocks b).length)).sum : Nat) ≤
      e.2.length * BLOCK_SIZE := by
    have h1 := List.sum_le_card_nsmul (e.2.map (fun b => (fragAt d.blocks b).length))
      BLOCK_SIZE (by
        intro x hx
        rcases List.mem_map.mp hx with ⟨b, _, rfl⟩
        exact fragAt_length_le d hWF b)
    simpa [smul_eq_mul] using h1
  calc ((e.2.map (List.length ∘ fragAt d.blocks)).sum : Nat) =
      (e.2.map (fun b => (fragAt d.blocks b).length)).sum := rfl
    _ ≤ e.2.length * BLOCK_SIZE := hle

theorem flatten_length_le (d : Disk) (hWF : WF d) :
    ((d.files.map (fun e => e.2)).flatten).length ≤ TOTAL_BLOCKS := by
  classical
  set l := (d.files.map (fun e => e.2)).flatten with hl
  have hnd : l.Nodup := hWF.2.2.2.1
  have hbound : ∀ x ∈ l, x < TOTAL_BLOCKS := by
    intro x hx
    rcases List.mem_flatten.mp hx with ⟨bs, hbs, hxbs⟩
    rcases List.mem_map.mp hbs with ⟨e, he, rfl⟩
    exact hWF.2.2.1 e he x hxbs
  have hsub : l.toFinset ⊆ Finset.range TOTAL_BLOCKS := by
    intro x hx
    rw [List.mem_toFinset] at hx
    exact Finset.mem_range.mpr (hbound x hx)
  have hcard := Finset.card_le_card hsub
  rw [List.toFinset_card_of_nodup hnd, Finset.card_range] at hcard
  exact hcard

theorem sum_needOf_le (d : Disk) (hWF : WF d) :
    (d.files.map (fun e => needOf d e.1)).sum ≤ TOTAL_BLOCKS := by
  have h1 : (d.files.map (fun e => needOf d e.1)).sum ≤
      (d.files.map (fun e => e.2.length)).sum :=
    List.sum_le_sum (fun e he => needOf_le_blocks d hWF e he)
  have h2 : (d.files.map (fun e => e.2.length)).sum =
      ((d.files.map (fun e => e.2)).flatten).length := by
    rw [List.length_flatten, List.map_map]
    rfl
  rw [h2] at h1
  exact Nat.le_trans h1 (flatten_length_le d hWF)

theorem sorted_perm (d : Disk) :
    (d.files.mergeSort (fun a b => decide (a.1 ≤ b.1))).Perm d.files :=
  List.mergeSort_perm d.files _

theorem read_range_chunks (blocks : List (Option Frag)) (t : Frag) (s n : Nat)
    (hcells : ∀ j < n, blocks[s + j]? = some (some (chunk t j))) :
    (List.range' s n).map (fragAt blocks) = (List.range n).map (chunk t) := by
  apply List.ext_get
  · simp
  · intro j h1 h2
    rw [List.get_eq_getElem, List.get_eq_getElem]
    rw [List.length_map, List.length_range'] at h1
    simp only [List.getElem_map]
    rw [List.getElem_range', Nat.one_mul, List.getElem_range]
    rw [fragAt, hcells j h1]

theorem defragCmd_spec (d : Disk) (hWF : WF d) :
    (defragCmd d).blocks.length = TOTAL_BLOCKS ∧
    ((defragCmd d).files.map (fun e => e.1)).Perm (d.files.map (fun e => e.1)) ∧
    (∀ e ∈ (defragCmd d).files, ∃ s, s + needOf d e.1 ≤ TOTAL_BLOCKS ∧
      e.2 = List.range' s (needOf d e.1) ∧
      ∀ j < needOf d e.1,
        (defragCmd d).blocks[s + j]? = some (some (chunk (textOf d e.1) j))) ∧
    (∃ k, k ≤ TOTAL_BLOCKS ∧
      ((defragCmd d).files.map (fun e => e.2)).flatten = List.range' 0 k ∧
      (∀ i, k ≤ i → i < TOTAL_BLOCKS → (defragCmd d).blocks[i]? = some none) ∧
      (∀ i < k, ∃ f, (defragCmd d).blocks[i]? = some (some f) ∧
        f.length ≤ BLOCK_SIZE)) := by
  have hperm := sorted_perm d
  have hsumS : ((d.files.mergeSort (fun a b => decide (a.1 ≤ b.1))).map
      (fun e => needOf d e.1)).sum = (d.files.map (fun e => needOf d e.1)).sum :=
    (hperm.map _).sum_eq
  have hfold := defrag_fold d (d.files.mergeSort (fun a b => decide (a.1 ≤ b.1)))
    (List.replicate TOTAL_BLOCKS none) [] 0
    (List.length_replicate _ _)
    (by rw [hsumS, Nat.zero_add]; exact sum_needOf_le d hWF)
    (by
      intro i _ hlt
      rw [List.getElem?_replicate, if_pos hlt])
    (by intro i hi; omega)
    (by intro e he; simp at he)
    (by simp)
  rcases hfold with ⟨r1, r2, r3, r4, r5, r6, r7⟩
  have hblocks : (defragCmd d).blocks =
      ((d.files.mergeSort (fun a b => decide (a.1 ≤ b.1))).foldl (defragStep d)
        (List.replicate TOTAL_BLOCKS none, [], 0)).1 := rfl
  have hfiles : (defragCmd d).files =
      ((d.files.mergeSort (fun a b => decide (a.1 ≤ b.1))).foldl (defragStep d)
        (List.replicate TOTAL_BLOCKS none, [], 0)).2.1 := rfl
  have hkeq : ((d.files.mergeSort (fun a b => decide (a.1 ≤ b.1))).foldl (defragStep d)
      (List.replicate TOTAL_BLOCKS none, [], 0)).2.2 ≤ TOTAL_BLOCKS := by
    rw [r1, Nat.zero_add, hsumS]
    exact sum_needOf_le d hWF
  refine ⟨by rw [hblocks]; exact r2, ?_, ?_, ?_⟩
  · rw [hfiles, r7]
    simp only [List.map_nil, List.nil_append]
    exact (hperm.map _)
  · intro e he
    rw [hfiles] at he
    rcases r5 e he with ⟨s, hle, hshape, hcells⟩
    refine ⟨s, by omega, hshape, ?_⟩
    intro j hj
    rw [hblocks]
    exact hcells j hj
  · refine ⟨((d.files.mergeSort (fun a b => decide (a.1 ≤ b.1))).foldl (defragStep d)
      (List.replicate TOTAL_BLOCKS none, [], 0)).2.2, hkeq, ?_, ?_, ?_⟩
    · rw [hfiles]
      exact r6
    · intro i hge hlt
      rw [hblocks]
      exact r3 i hge hlt
    · intro i hlt
      rw [hblocks]
      exact r4 i hlt

theorem WF_defragCmd (d : Disk) (hWF : WF d) : WF (defragCmd d) := by
  rcases defragCmd_spec d hWF with ⟨hlen, hkperm, hentry, k, hk, hflat, hsuffix, hfull⟩
  have hkeys : ((defragCmd d).files.map (fun e => e.1)).Nodup :=
    (hkperm.symm).nodup hWF.2.1
  have hmemk : ∀ e ∈ (defragCmd d).files, ∀ b ∈ e.2, b < k := by
    intro e he b hb
    have hbf : b ∈ ((defragCmd d).files.map (fun e => e.2)).flatten :=
      List.mem_flatten.mpr ⟨e.2, List.mem_map_of_mem _ he, hb⟩
    rw [hflat] at hbf
    rcases List.mem_range'_1.mp hbf with ⟨_, h2⟩
    omega
  refine ⟨hlen, hkeys, ?_, ?_, ?_, ?_⟩
  · intro e he b hb
    have := hmemk e he b hb
    omega
  · rw [hflat]
    exact List.nodup_range' _ _
  · intro e he b hb
    have hbk := hmemk e he b hb
    rcases hfull b hbk with ⟨f, hf, _⟩
    rw [usedAt_iff]
    exact ⟨f, hf⟩
  · intro f hf
    rcases List.mem_iff_getElem?.mp hf with ⟨i, hi⟩
    have hilt : i < TOTAL_BLOCKS := by
      rcases List.getElem?_eq_some.mp hi with ⟨h1, _⟩
      rw [hlen] at h1
      exact h1
    by_cases hik : i < k
    · rcases hfull i hik with ⟨g, hg, hgs⟩
      rw [hi] at hg
      cases hg
      simpa using hgs
    · have := hsuffix i (by omega) hilt
      rw [hi] at this
      cases this
      simp

theorem defragCmd_read (d : Disk) (hWF : WF d) :
    ∀ e ∈ (defragCmd d).files, read_file_text (defragCmd d) e.1 = some (textOf d e.1) := by
  intro e he
  rcases defragCmd_spec d hWF with ⟨_, hkperm, hentry, _⟩
  have hkeys : ((defragCmd d).files.map (fun e => e.1)).Nodup :=
    (hkperm.symm).nodup hWF.2.1
  rw [read_eq_of_mem (defragCmd d) hkeys e he]
  rcases hentry e he with ⟨s, _, hshape, hcells⟩
  rw [hshape, read_range_chunks (defragCmd d).blocks (textOf d e.1) s (needOf d e.1) hcells]
  rw [show needOf d e.1 = blocksNeeded (textOf d e.1).length from rfl, flatten_chunks_needed]

theorem is_contiguous_range' (s n : Nat) : is_contiguous (List.range' s n) = true := by
  rw [is_contiguous, List.all_eq_true]
  intro i hi
  rw [List.mem_range] at hi
  rw [List.length_range'] at hi
  have hgd : ∀ m, m < n → (List.range' s n).getD m 0 = s + m := by
    intro m hm
    rw [List.getD_eq_getElem?_getD, List.getElem?_eq_getElem (by
      rw [List.length_range']
      exact hm)]
    rw [List.getElem_range', Nat.one_mul]
    rfl
  rw [hgd i (by omega), hgd (i + 1) (by omega)]
  exact beq_iff_eq.mpr (by omega)

/-! ### The claims -/

/-- Claim C1: for every path and every content string, under each of the
three strategies (the strategy is part of the disk state and
`allocate_blocks` dispatches on it), if `write(path, content)` succeeds
then a subsequent `read(path)` returns exactly `content`: the
concatenation of the stored `BLOCK_SIZE`-sized fragments in file-table
order equals the written content. -/
theorem c1_write_read_roundtrip (d : Disk) (p : String) (c : Frag)
    (h : (writeCmd d p c).2 = true) :
    read_file_text (writeCmd d p c).1 p = some c :=
  writeCmd_read d p c h

/-- Claim C1 witness: a successful write of "hi" on the fresh disk reads
back as "hi". -/
theorem c1_write_read_roundtrip_witness :
    (writeCmd default_disk "p" ['h', 'i']).2 = true ∧
    read_file_text (writeCmd default_disk "p" ['h', 'i']).1 "p" = some ['h', 'i'] :=
  ⟨by decide, c1_write_read_roundtrip default_disk "p" ['h', 'i'] (by decide)⟩

/-- Claim C2 counterexample: on a full two-block disk where file `a`
owns block 0, rewriting `a` fails with `NoSpace`, yet — contrary to the
claim — nothing was freed: the disk is unchanged and the old content of
`a` is still readable.  The handler allocates before freeing, so a
failed write is non-destructive. -/
theorem c2_counterexample :
    (writeCmd dFull "a" ['x']).2 = false ∧
    (writeCmd dFull "a" ['x']).1 = dFull ∧
    read_file_text (writeCmd dFull "a" ['x']).1 "a" = some ['h'] := by
  decide

/-- Claim C2 (amended): if `write(path, content)` fails with `NoSpace`,
the disk is left completely unchanged — the previous allocation and
content of `path` are preserved, not removed. -/
theorem c2_write_fail_preserves (d : Disk) (p : String) (c : Frag)
    (h : (writeCmd d p c).2 = false) : (writeCmd d p c).1 = d :=
  writeCmd_of_snd_false d p c h

/-- Claim C2 witness: the failing rewrite on the full disk leaves it
unchanged. -/
theorem c2_write_fail_preserves_witness :
    (writeCmd dFull "a" ['x']).2 = false ∧ (writeCmd dFull "a" ['x']).1 = dFull :=
  ⟨by decide, c2_write_fail_preserves dFull "a" ['x'] (by decide)⟩

/-- Claim C3 counterexample: on the full two-block disk, the
release-first allocation the claim describes (free `a`'s own block,
then allocate) would succeed with block 0, yet the actual handler
reports `NoSpace` — so `write` does not release the path's blocks
before consulting the allocator. -/
theorem c3_counterexample :
    (writeCmd dFull "a" ['x']).2 = false ∧
    releaseThenAllocate dFull "a" (blocksNeeded (['x'] : Frag).length) = some [0] := by
  decide

/-- Claim C3 (amended): `write` consults the Allocator first, against
the unmodified disk in which the path's own current blocks still count
as used; the old blocks are released only after a successful allocation,
and the file table then points at exactly the allocated list. -/
theorem c3_allocate_before_release (d : Disk) (p : String) (c : Frag) :
    ((writeCmd d p c).2 = true ↔
      ∃ l, allocate_blocks d (blocksNeeded c.length) = some l ∧ l ≠ []) ∧
    (∀ l, allocate_blocks d (blocksNeeded c.length) = some l → l ≠ [] →
      getFile (writeCmd d p c).1.files p = some l) :=
  ⟨writeCmd_snd_true_iff d p c, fun l h hne => writeCmd_files d p c l h hne⟩

/-- Claim C3 witness: on the fresh disk a one-byte write allocates block
0 from the untouched free view and records it. -/
theorem c3_allocate_before_release_witness :
    getFile (writeCmd default_disk "p" ['h']).1.files "p" = some [0] :=
  (c3_allocate_before_release default_disk "p" ['h']).2 [0] (by decide) (by decide)

/-- Claim C4: the ceiling law holds (`BLOCK_SIZE` bytes use 1 block,
`BLOCK_SIZE + 1` use 2, zero-length content needs 0 blocks), but the
zero-length write that the claim requires to succeed in fact fails: the
allocator returns the empty list and `if not blocks` conflates that
valid empty allocation with the `None` failure signal, so the handler
reports `Not enough space` and no file is created. -/
theorem c4_zero_length_write_fails :
    blocksNeeded 0 = 0 ∧
    (writeCmd default_disk "f" []).2 = false ∧
    getFile (writeCmd default_disk "f" []).1.files "f" = none ∧
    blocksNeeded BLOCK_SIZE = 1 ∧
    blocksNeeded (BLOCK_SIZE + 1) = 2 := by
  decide

/-- Claim C5: for every block-store state and every `n ≥ 1`, first fit
fails exactly when no window of `n` consecutive free slots exists (even
if the total free count reaches `n`), and on success returns the `n`
consecutive indices of the earliest such window — the last `n` indices
of the first run reaching length `n`.  In the concrete four-slot store
with only index 1 used, a request for 2 blocks yields `[2, 3]` under
first fit while bitmap yields the scattered `[0, 2]`. -/
theorem c5_first_fit_spec :
    (∀ (d : Disk) (n : Nat), 1 ≤ n →
      ((get_free_blocks_first_fit d n = none ↔ ∀ s, ¬hasFreeRun d.blocks s n) ∧
       (∀ l, get_free_blocks_first_fit d n = some l →
         ∃ s, l = List.range' s n ∧ hasFreeRun d.blocks s n ∧
           ∀ t, hasFreeRun d.blocks t n → s ≤ t))) ∧
    get_free_blocks_first_fit demoFF 2 = some [2, 3] ∧
    get_free_blocks_bitmap demoFF 2 = some [0, 2] := by
  refine ⟨?_, by decide, by decide⟩
  intro d n hn
  rw [first_fit_eq d n hn]
  constructor
  · constructor
    · intro h s
      rw [Option.map_eq_none'] at h
      exact minFreeStart_none d.blocks n hn h s
    · intro h
      cases hm : minFreeStart d.blocks n with
      | none => rfl
      | some s =>
        exact absurd (minFreeStart_some d.blocks n s hm).1 (h s)
  · intro l hl
    rcases Option.map_eq_some'.mp hl with ⟨s, hs, rfl⟩
    rcases minFreeStart_some d.blocks n s hs with ⟨hfree, hmin⟩
    exact ⟨s, rfl, hfree, hmin⟩

/-- Claim C5 witness: the failure characterization instantiated on the
four-slot demo store with `n = 2`. -/
theorem c5_first_fit_spec_witness :
    get_free_blocks_first_fit demoFF 2 = none ↔ ∀ s, ¬hasFreeRun demoFF.blocks s 2 :=
  (c5_first_fit_spec.1 demoFF 2 (by decide)).1

/-- Claim C6: best fit partitions the free indices into the maximal
consecutive runs (their concatenation is exactly `free_indices`, each
run is a non-empty consecutive range of free slots flanked by used or
out-of-range slots), fails exactly when no run reaches length `n`, and
otherwise returns the first `n` indices of a run of minimal length among
those of length at least `n`.  With free runs of lengths 5, 2 and 3 and
`n = 2` it picks the length-2 run; on a tie of two length-2 runs it
picks the first. -/
theorem c6_best_fit_spec :
    (∀ d : Disk,
      (freeRuns d).flatten = free_indices d ∧
      ∀ r ∈ freeRuns d, ∃ s len, 1 ≤ len ∧ r = List.range' s len ∧
        (∀ j < len, d.blocks[s + j]? = some none) ∧
        d.blocks[s + len]? ≠ some none ∧
        (s = 0 ∨ d.blocks[s - 1]? ≠ some none)) ∧
    (∀ (d : Disk) (n : Nat), 1 ≤ n →
      ((get_free_blocks_best_fit d n = none ↔ ∀ r ∈ freeRuns d, r.length < n) ∧
       ∀ l, get_free_blocks_best_fit d n = some l →
         ∃ r ∈ freeRuns d, n ≤ r.length ∧ l = r.take n ∧
           ∀ r2 ∈ freeRuns d, n ≤ r2.length → r.length ≤ r2.length)) ∧
    get_free_blocks_best_fit demoBF 2 = some [6, 7] ∧
    get_free_blocks_best_fit demoTie 2 = some [0, 1] := by
  refine ⟨?_, ?_, by decide, by decide⟩
  · intro d
    exact ⟨freeRuns_flatten d, freeRuns_spec d⟩
  · intro d n _
    constructor
    · rw [get_free_blocks_best_fit]
      cases hc : (freeRuns d).filter (fun r => n ≤ r.length) with
      | nil =>
        simp only [hc]
        constructor
        · intro _ r hr
          by_contra hlen
          have hmem : r ∈ (freeRuns d).filter (fun r => n ≤ r.length) :=
            List.mem_filter.mpr ⟨hr, decide_eq_true (by omega)⟩
          rw [hc] at hmem
          simp at hmem
        · intro _
          trivial
      | cons c cs =>
        simp only [hc]
        constructor
        · intro h
          cases h
        · intro h
          have hmem : c ∈ (freeRuns d).filter (fun r => n ≤ r.length) := by
            rw [hc]
            exact List.mem_cons_self _ _
          have := h c (List.mem_filter.mp hmem).1
          have h2 := of_decide_eq_true (List.mem_filter.mp hmem).2
          omega
    · intro l hl
      rw [get_free_blocks_best_fit] at hl
      cases hc : (freeRuns d).filter (fun r => n ≤ r.length) with
      | nil =>
        rw [hc] at hl
        cases hl
      | cons c cs =>
        rw [hc] at hl
        simp only [Option.some.injEq] at hl
        rcases foldlMin_spec cs c with ⟨hmem, hle⟩
        have hcand : cs.foldl (fun best r => if r.length < best.length then r else best) c ∈
            (freeRuns d).filter (fun r => n ≤ r.length) := by
          rw [hc]
          rcases hmem with hm | hm
          · rw [hm]
            exact List.mem_cons_self _ _
          · exact List.mem_cons_of_mem _ hm
        refine ⟨cs.foldl (fun best r => if r.length < best.length then r else best) c,
          (List.mem_filter.mp hcand).1,
          of_decide_eq_true (List.mem_filter.mp hcand).2, hl.symm, ?_⟩
        intro r2 hr2 hn2
        have hr2c : r2 ∈ (freeRuns d).filter (fun r => n ≤ r.length) :=
          List.mem_filter.mpr ⟨hr2, decide_eq_true hn2⟩
        rw [hc] at hr2c
        exact hle r2 hr2c

/-- Claim C6 witness: the failure characterization instantiated on the
three-run demo store with `n = 2`. -/
theorem c6_best_fit_spec_witness :
    get_free_blocks_best_fit demoBF 2 = none ↔ ∀ r ∈ freeRuns demoBF, r.length < 2 :=
  (c6_best_fit_spec.2.1 demoBF 2 (by decide)).1

/-- Claim C7: on every disk state satisfying the data-model invariants,
`defrag` preserves the multiset of (path, content) pairs exactly — each
file reads back the same content — and afterwards every file's block
list is a consecutive ascending run (`is_contiguous`), and the used
blocks are packed from index 0 with no free gap before the last used
block. -/
theorem c7_defrag_spec (d : Disk) (h : WF d) :
    ((defragCmd d).files.map
        (fun e => (e.1, (read_file_text (defragCmd d) e.1).getD []))).Perm
      (d.files.map (fun e => (e.1, (read_file_text d e.1).getD []))) ∧
    (∀ e ∈ (defragCmd d).files, is_contiguous e.2 = true) ∧
    (∃ k, k ≤ TOTAL_BLOCKS ∧ ∀ i < TOTAL_BLOCKS,
      ((defragCmd d).blocks[i]? ≠ some none ↔ i < k)) := by
  rcases defragCmd_spec d h with ⟨_, hkperm, hentry, k, hk, _, hsuffix, hfull⟩
  refine ⟨?_, ?_, ?_⟩
  · have hstep1 : (defragCmd d).files.map
        (fun e => (e.1, (read_file_text (defragCmd d) e.1).getD [])) =
        (defragCmd d).files.map (fun e => (e.1, textOf d e.1)) := by
      refine List.map_congr_left ?_
      intro e he
      rw [defragCmd_read d h e he]
      rfl
    have hstep2 : ∀ fs : List (String × List Nat),
        fs.map (fun e => (e.1, textOf d e.1)) =
          (fs.map (fun e => e.1)).map (fun q => (q, textOf d q)) := by
      intro fs
      rw [List.map_map]
      rfl
    have hstep3 : d.files.map (fun e => (e.1, (read_file_text d e.1).getD [])) =
        (d.files.map (fun e => e.1)).map (fun q => (q, textOf d q)) :=
      hstep2 d.files
    rw [hstep1, hstep2, hstep3]
    exact hkperm.map _
  · intro e he
    rcases hentry e he with ⟨s, _, hshape, _⟩
    rw [hshape]
    exact is_contiguous_range' _ _
  · refine ⟨k, hk, ?_⟩
    intro i hi
    constructor
    · intro hne
      by_contra hik
      exact hne (hsuffix i (by omega) hi)
    · intro hik
      rcases hfull i hik with ⟨f, hf, _⟩
      rw [hf]
      simp
/-- Claim C7 witness: the well-formed two-file demo disk satisfies the
invariants and the defragmentation conclusions. -/
theorem c7_defrag_spec_witness :
    WF wDisk ∧
    (((defragCmd wDisk).files.map
        (fun e => (e.1, (read_file_text (defragCmd wDisk) e.1).getD []))).Perm
      (wDisk.files.map (fun e => (e.1, (read_file_text wDisk e.1).getD []))) ∧
    (∀ e ∈ (defragCmd wDisk).files, is_contiguous e.2 = true) ∧
    (∃ k, k ≤ TOTAL_BLOCKS ∧ ∀ i < TOTAL_BLOCKS,
      ((defragCmd wDisk).blocks[i]? ≠ some none ↔ i < k))) :=
  ⟨by decide, c7_defrag_spec wDisk (by decide)⟩

/-- Claim C8 counterexample: on a one-block disk with no free space and
`p` absent, two appends leave `p` unreadable, so `read(p)` is not
`a ++ b` — the claim fails without the implicit assumption that the
underlying rewrites succeed, because append reports success even when
the nested write found no space. -/
theorem c8_counterexample :
    getFile dNoRoom.files "p" = none ∧
    read_file_text (appendCmd (appendCmd dNoRoom "p" ['x']).1 "p" ['y']).1 "p" ≠
      some (['x'] ++ ['y']) := by
  decide

/-- Claim C8 (amended): for all content strings `a` and `b`, starting
from a disk in which `path` is absent, if each append's underlying
rewrite succeeds, then `append(path, a)` followed by `append(path, b)`
yields `read(path) = a ++ b`. -/
theorem c8_append_append (d : Disk) (p : String) (a b : Frag)
    (habs : getFile d.files p = none)
    (h1 : (writeCmd d p a).2 = true)
    (h2 : (writeCmd (appendCmd d p a).1 p (a ++ b)).2 = true) :
    read_file_text (appendCmd (appendCmd d p a).1 p b).1 p = some (a ++ b) := by
  have hd1 : (appendCmd d p a).1 = (writeCmd d p a).1 := by
    rw [appendCmd_fst, habs]
    rfl
  have hread1 : read_file_text (appendCmd d p a).1 p = some a := by
    rw [hd1]
    exact writeCmd_read d p a h1
  rcases (writeCmd_snd_true_iff d p a).mp h1 with ⟨alloc, halloc, hne⟩
  have hgf : getFile (appendCmd d p a).1.files p = some alloc := by
    rw [hd1]
    exact writeCmd_files d p a alloc halloc hne
  have hd2 : (appendCmd (appendCmd d p a).1 p b).1 =
      (writeCmd (appendCmd d p a).1 p (a ++ b)).1 := by
    rw [appendCmd_fst, hgf, hread1]
    simp
  rw [hd2]
  exact writeCmd_read (appendCmd d p a).1 p (a ++ b) h2

/-- Claim C8 witness: two one-character appends on the fresh disk. -/
theorem c8_append_append_witness :
    getFile default_disk.files "p" = none ∧
    (writeCmd default_disk "p" ['x']).2 = true ∧
    (writeCmd (appendCmd default_disk "p" ['x']).1 "p" (['x'] ++ ['y'])).2 = true ∧
    read_file_text (appendCmd (appendCmd default_disk "p" ['x']).1 "p" ['y']).1 "p" =
      some (['x'] ++ ['y']) :=
  ⟨by decide, by decide, by decide,
    c8_append_append default_disk "p" ['x'] ['y'] (by decide) (by decide) (by decide)⟩

/-- Claim C9: on every disk state satisfying the data-model invariants,
each of write, append, delete and defragment preserves the invariant
that every block index is referenced by at most one file-table entry at
a time — no sharing between files and no duplicate inside a file's
list (the flattened index list stays duplicate-free). -/
theorem c9_no_sharing (d : Disk) (p q : String) (c : Frag) (h : WF d) :
    noShare (writeCmd d p c).1 ∧ noShare (appendCmd d p c).1 ∧
    noShare (rmCmd d q).1 ∧ noShare (defragCmd d) :=
  ⟨(WF_writeCmd d p c h).2.2.2.1, (WF_appendCmd d p c h).2.2.2.1,
    (WF_rmCmd d q h).2.2.2.1, (WF_defragCmd d h).2.2.2.1⟩

/-- Claim C9 witness: the four operations instantiated on the two-file
demo disk. -/
theorem c9_no_sharing_witness :
    WF wDisk ∧
    (noShare (writeCmd wDisk "c" ['z']).1 ∧ noShare (appendCmd wDisk "c" ['z']).1 ∧
      noShare (rmCmd wDisk "a").1 ∧ noShare (defragCmd wDisk)) :=
  ⟨by decide, c9_no_sharing wDisk "c" "a" ['z'] (by decide)⟩

/-- Claim C10: the append command reports success unconditionally; on
the one-block disk whose only block holds file `a`'s content, appending
one character makes the nested rewrite fail with `NoSpace`, the disk —
blocks, file table and content — is left completely unchanged, and
append still reports success, the nested write's error message being
discarded. -/
theorem c10_append_silent_failure :
    (∀ (d : Disk) (p : String) (c : Frag), (appendCmd d p c).2 = true) ∧
    (writeCmd dTight "a" (['h'] ++ ['x'])).2 = false ∧
    appendCmd dTight "a" ['x'] = (dTight, true) := by
  refine ⟨fun d p c => rfl, by decide, by decide⟩
